import Mathlib

/-!
Shallow embedding of the release-asset synchronization subsystem of
jp-idwr-db (module src/jp_idwr_db/data_manager.py).

The filesystem state of the per-version cache directory is modelled as an
association list from file names to contents, the network as a function
from URLs to results, and the content hasher as a function supplied by the
environment (a real SHA-256 is not computed; the code treats digests as
opaque hex strings compared for equality).  JSON numbers are modelled as
integers, which covers every value the manifests carry.
-/

set_option maxRecDepth 100000

namespace JpIdwr

/-- A decoded JSON value, as produced by json.loads. -/
inductive JVal where
  | str : String → JVal
  | num : Int → JVal
  | bool : Bool → JVal
  | null : JVal
  | arr : List JVal → JVal
  | obj : List (String × JVal) → JVal

/-- File contents.  A downloaded body is whatever the server returns; the
completion marker is written as text; manifests decode to JSON; the legacy
archive is a zip whose members are (name, content) pairs. -/
inductive Content where
  | bytes : List Nat → Content
  | text : String → Content
  | json : JVal → Content
  | zip : List (String × Content) → Content

/-- Failures of httpx.stream / response.raise_for_status as observed by the
caller: an HTTPStatusError carrying a response with a status code, an
HTTPStatusError whose response attribute is None, or any other transport
error. -/
inductive HttpError where
  | status : Nat → HttpError
  | statusNoResponse : HttpError
  | transport : HttpError
deriving DecidableEq

/-- The errors raised by the data manager (all ValueError / httpx errors in
the source; distinguished here by their message). -/
inductive SyncError where
  | http : HttpError → SyncError
  | invalidManifestMissingKeys : List String → SyncError
  | invalidTables : SyncError
  | invalidTableEntryNotObject : SyncError
  | invalidTableEntryMissingKeys : List String → SyncError
  | invalidLegacyMissingKeys : List String → SyncError
  | invalidLegacyFiles : SyncError
  | archiveChecksumMismatch : SyncError
  | checksumMismatch : String → SyncError
  | sizeMismatch : String → SyncError
  | missingExtractedFile : String → SyncError
  | missingDatasetsInManifest : List String → SyncError
  | missingDatasetsInCache : List String → SyncError
  | jsonDecodeError : SyncError
  | badZipFile : SyncError
  | typeError : SyncError
  | keyError : String → SyncError
deriving DecidableEq

/-! Constants of data_manager.py. -/

def PACKAGE_NAME : String := "jp_idwr_db"

def DEFAULT_REPO : String := "AlFontal/jp-idwr-db"

def DEFAULT_BASE_URL : String := "https://github.com/" ++ DEFAULT_REPO ++ "/releases/download"

def ARCHIVE_NAME : String := "jp_idwr_db-parquet.zip"

def MANIFEST_NAME : String := "manifest.json"

def LEGACY_MANIFEST_NAME : String := "jp_idwr_db-manifest.json"

/-- EXPECTED_DATASETS, a Python set literal.  It is modelled as the list of
its elements in source order; the code only ever observes it through
membership tests, sorted() and emptiness of filtered sublists, so the
unspecified set iteration order is not observable. -/
def EXPECTED_DATASETS : List String :=
  ["sex_prefecture.parquet", "place_prefecture.parquet", "bullet.parquet",
   "sentinel.parquet", "unified.parquet", "prefecture_en.parquet"]

/-- Strict lexicographic order on code-point lists (the order Python uses
to compare strings). -/
def charListLt : List Char → List Char → Bool
  | [], [] => false
  | [], _ :: _ => true
  | _ :: _, [] => false
  | x :: xs, y :: ys =>
    if x.toNat < y.toNat then true
    else if y.toNat < x.toNat then false
    else charListLt xs ys

/-- a <= b on strings, by code points. -/
def strLe (a b : String) : Bool := ! charListLt b.toList a.toList

/-- Stable insertion of a string into a sorted list. -/
def insertSorted (x : String) : List String → List String
  | [] => [x]
  | y :: ys => if strLe x y then x :: y :: ys else y :: insertSorted x ys

/-- Python sorted() on strings (lexicographic by code point, stable). -/
def sortStrings (xs : List String) : List String :=
  xs.foldr insertSorted []

/-- The sortedness predicate used in the statements below. -/
def StrSorted (xs : List String) : Prop :=
  List.Pairwise (fun a b => strLe a b = true) xs

/-! Association-list primitives modelling Python dict access. -/

/-- Value stored for a key, later bindings shadowing earlier ones (a real
dict never holds duplicate keys, and json.loads resolves duplicate keys in
favour of the last; this is the dict lookup). -/
def alistGet {α : Type} : List (String × α) → String → Option α
  | [], _ => none
  | kv :: kvs, k =>
    match alistGet kvs k with
    | some v => some v
    | none => if kv.1 = k then some kv.2 else none

/-- dict insertion: an existing key keeps its position and gets the new
value, a fresh key is appended (Python dict insertion-order semantics). -/
def alistSet {α : Type} (kvs : List (String × α)) (k : String) (v : α) :
    List (String × α) :=
  if k ∈ kvs.map Prod.fst then
    kvs.map (fun kv => if kv.1 = k then (k, v) else kv)
  else kvs ++ [(k, v)]

/-- `k in d` for a dict. -/
def hasKey (kvs : List (String × JVal)) (k : String) : Bool :=
  decide (k ∈ kvs.map Prod.fst)

/-- sorted(required - set(manifest)): the required keys that are absent,
in sorted order.  (Filtering the sorted required list yields exactly the
sorted set difference.) -/
def missingKeys (required : List String) (kvs : List (String × JVal)) : List String :=
  (sortStrings required).filter (fun k => ! hasKey kvs k)

/-- d[k] for a dict-like JSON value: KeyError when absent, TypeError when
the value is not an object. -/
def jGet (v : JVal) (k : String) : Except SyncError JVal :=
  match v with
  | .obj kvs =>
    match alistGet kvs k with
    | some x => .ok x
    | none => .error (.keyError k)
  | _ => .error .typeError

def joinComma : List String → String
  | [] => ""
  | [s] => s
  | s :: rest => s ++ ", " ++ joinComma rest

mutual

/-- Python repr() of a decoded JSON value (string escaping elided; it never
matters to the code, which only compares these strings for equality). -/
def pyRepr : JVal → String
  | .str s => "\x27" ++ s ++ "\x27"
  | .num n => toString n
  | .bool b => if b then "True" else "False"
  | .null => "None"
  | .arr xs => "[" ++ joinComma (pyReprList xs) ++ "]"
  | .obj kvs => "\x7b" ++ joinComma (pyReprKVs kvs) ++ "\x7d"

def pyReprList : List JVal → List String
  | [] => []
  | x :: xs => pyRepr x :: pyReprList xs

def pyReprKVs : List (String × JVal) → List String
  | [] => []
  | kv :: kvs => ("\x27" ++ kv.1 ++ "\x27: " ++ pyRepr kv.2) :: pyReprKVs kvs

end

/-- Python str() of a decoded JSON value. -/
def pyStr : JVal → String
  | .str s => s
  | v => pyRepr v

/-- Python int() of a decoded JSON value: identity on integers, bools
coerce, strings parse, everything else is a TypeError. -/
def pyInt : JVal → Except SyncError Int
  | .num n => .ok n
  | .bool b => .ok (if b then 1 else 0)
  | .str s =>
    match s.trim.toInt? with
    | some n => .ok n
    | none => .error .typeError
  | _ => .error .typeError

/-- Python equality between a str and an arbitrary decoded JSON value
(used for archive_hash != manifest["archive_sha256"], which compares
without a str() cast): equal only when the value is that very string. -/
def strEqJVal (s : String) : JVal → Bool
  | .str t => s = t
  | _ => false

/-! Manifest validators (source lines 84-120). -/

def requiredLegacyKeys : List String := ["archive", "archive_sha256", "files"]

def requiredManifestKeys : List String :=
  ["spec_version", "dataset_id", "data_version", "release_tag", "published_at",
   "license", "homepage", "assets_base_url", "tables"]

def requiredTableKeys : List String := ["name", "file", "format", "size_bytes", "sha256"]

/-- _verify_legacy_manifest: ensure legacy zip manifest has expected
structure.  The argument is annotated dict[str, Any] in the source, so a
non-object decode is a type error. -/
def _verify_legacy_manifest (manifest : JVal) : Except SyncError Unit :=
  match manifest with
  | .obj kvs =>
    let missing := missingKeys requiredLegacyKeys kvs
    if missing ≠ [] then .error (.invalidLegacyMissingKeys missing)
    else
      match alistGet kvs "files" with
      | some (.obj files) =>
        if files.isEmpty then .error .invalidLegacyFiles else .ok ()
      | some _ => .error .invalidLegacyFiles
      | none => .error (.keyError "files")
  | _ => .error .typeError

/-- Loop body of _verify_manifest over the table entries. -/
def verifyTables : List JVal → Except SyncError Unit
  | [] => .ok ()
  | t :: ts =>
    match t with
    | .obj kvs =>
      let missing := missingKeys requiredTableKeys kvs
      if missing ≠ [] then .error (.invalidTableEntryMissingKeys missing)
      else verifyTables ts
    | _ => .error .invalidTableEntryNotObject

/-- _verify_manifest: ensure new release manifest has expected structure. -/
def _verify_manifest (manifest : JVal) : Except SyncError Unit :=
  match manifest with
  | .obj kvs =>
    let missing := missingKeys requiredManifestKeys kvs
    if missing ≠ [] then .error (.invalidManifestMissingKeys missing)
    else
      match alistGet kvs "tables" with
      | some (.arr tables) =>
        if tables.isEmpty then .error .invalidTables else verifyTables tables
      | some _ => .error .invalidTables
      | none => .error (.keyError "tables")
  | _ => .error .typeError

/-! Environment, world and state. -/

/-- Process environment: the three override variables (os.getenv yields
none when unset; a set-but-empty value is falsy, like unset), the platform
cache directory, and the installed package version (none models
PackageNotFoundError). -/
structure Env where
  cacheDirEnv : Option String
  platformCacheDir : String
  dataVersionEnv : Option String
  baseUrlEnv : Option String
  pkgVersion : Option String

/-- The outside world of one run: the network (GET url, deterministic per
run) and the content hasher and size observer (stat().st_size). -/
structure World where
  net : String → Except HttpError Content
  sha256 : Content → String
  fsize : Content → Nat

/-- The per-version cache directory: whether it exists and its flat list
of (file name, content) entries. -/
structure DirState where
  present : Bool
  files : List (String × Content)
deriving Inhabited

/-- Mutable state threaded through a run: the cache directory of the
resolved version, and the log of URLs requested so far. -/
structure St where
  dir : DirState
  netLog : List String
deriving Inhabited

/-- Path.exists for a file in the directory. -/
def fileExists (st : St) (name : String) : Bool :=
  st.dir.present && (alistGet st.dir.files name).isSome

/-- Content of a file, when the directory and the file exist. -/
def readFile (st : St) (name : String) : Option Content :=
  if st.dir.present then alistGet st.dir.files name else none

/-- mkdir(parents=True, exist_ok=True): creates the directory empty when
absent, leaves it alone when present. -/
def mkdirP (st : St) : St :=
  if st.dir.present then st else { st with dir := { present := true, files := [] } }

/-- shutil.rmtree on the directory. -/
def rmtree (st : St) : St :=
  { st with dir := { present := false, files := [] } }

/-- Writing a file into the directory (open("wb") / write_text). -/
def writeFile (st : St) (name : String) (c : Content) : St :=
  let base := if st.dir.present then st.dir.files else []
  { st with dir := { present := true, files := alistSet base name c } }

/-! Version, cache-dir and base-URL resolution (source lines 35-62). -/

/-- get_cache_dir: env override (expanduser elided, a pure path
normalization) or the platform cache dir. -/
def get_cache_dir (env : Env) : String :=
  let override := env.cacheDirEnv.getD ""
  if override ≠ "" then override else env.platformCacheDir

/-- Python str.startswith with a one-character prefix (the only use in the
source): true when the first character is that character. -/
def startsWithChar (s : String) (c : Char) : Bool :=
  match s.toList with
  | [] => false
  | x :: _ => x = c

/-- The package-version leg of _resolve_data_version: the installed
version, or "0.0.0" on PackageNotFoundError, then prefixed with "v"
when that prefix is absent. -/
def _resolve_from_pkg (env : Env) : String :=
  let pkg_version := env.pkgVersion.getD "0.0.0"
  if startsWithChar pkg_version 'v' then pkg_version else "v" ++ pkg_version

/-- _resolve_data_version: explicit arg, env var, or package version.
Python truthiness makes a None argument and an empty string both fall
through. -/
def _resolve_data_version (env : Env) (version : Option String) : String :=
  let v := version.getD ""
  if v ≠ "" then v
  else
    let env_version := env.dataVersionEnv.getD ""
    if env_version ≠ "" then env_version
    else _resolve_from_pkg env

/-- str.rstrip("/"). -/
def rstripSlash (s : String) : String :=
  String.mk ((s.toList.reverse.dropWhile (fun c => c = '/')).reverse)

/-- _resolve_base_url: env override (right-stripped of slashes) or the
default release URL for the version. -/
def _resolve_base_url (env : Env) (version : String) : String :=
  let base_url := env.baseUrlEnv.getD ""
  if base_url ≠ "" then rstripSlash base_url
  else DEFAULT_BASE_URL ++ "/" ++ version

/-! Download primitives (source lines 74-159). -/

/-- _download_file(url, dest): ensure the parent directory exists, issue
the GET (logged), and on success write the body to dest.  raise_for_status
fires before anything is written, so a failed request writes nothing. -/
def _download_file (w : World) (url : String) (name : String) (st : St) :
    Except SyncError Unit × St :=
  let st1 := mkdirP st
  let st2 := { st1 with netLog := st1.netLog ++ [url] }
  match w.net url with
  | .ok body => (.ok (), writeFile st2 name body)
  | .error e => (.error (.http e), st2)

/-- json.loads of a file body. -/
def parseJson : Content → Except SyncError JVal
  | .json v => .ok v
  | _ => .error .jsonDecodeError

/-- zipfile.ZipFile(...).extractall member list. -/
def unzipContent : Content → Except SyncError (List (String × Content))
  | .zip members => .ok members
  | _ => .error .badZipFile

/-- _download_manifest: try the new-schema manifest, falling back to the
legacy name exactly on an HTTPStatusError whose response has code 404. -/
def _download_manifest (w : World) (env : Env) (version : String) (st : St) :
    Except SyncError (String × Bool) × St :=
  let base_url := _resolve_base_url env version
  match _download_file w (base_url ++ "/" ++ MANIFEST_NAME) MANIFEST_NAME st with
  | (.ok _, st1) => (.ok (MANIFEST_NAME, false), st1)
  | (.error e, st1) =>
    match e with
    | .http (.status code) =>
      if code ≠ 404 then (.error e, st1)
      else
        match _download_file w (base_url ++ "/" ++ LEGACY_MANIFEST_NAME)
            LEGACY_MANIFEST_NAME st1 with
        | (.ok _, st2) => (.ok (LEGACY_MANIFEST_NAME, true), st2)
        | (.error e2, st2) => (.error e2, st2)
    | _ => (.error e, st1)

/-- _download_and_verify_file: download one asset, then check its digest
against str(expected["sha256"]) and its size against
int(expected["size_bytes"]), in that order. -/
def _download_and_verify_file (w : World) (base_url : String) (filename : String)
    (expected : JVal) (st : St) : Except SyncError Unit × St :=
  match _download_file w (base_url ++ "/" ++ filename) filename st with
  | (.error e, st1) => (.error e, st1)
  | (.ok _, st1) =>
    match readFile st1 filename with
    | none => (.error .typeError, st1)
    | some c =>
      match jGet expected "sha256" with
      | .error e => (.error e, st1)
      | .ok hv =>
        if w.sha256 c ≠ pyStr hv then (.error (.checksumMismatch filename), st1)
        else
          match jGet expected "size_bytes" with
          | .error e => (.error e, st1)
          | .ok sv =>
            match pyInt sv with
            | .error e => (.error e, st1)
            | .ok expected_size =>
              if (w.fsize c : Int) ≠ expected_size then
                (.error (.sizeMismatch filename), st1)
              else (.ok (), st1)

/-! Legacy sync (source lines 162-181). -/

/-- Writing every extracted archive member into the directory. -/
def extractAll (members : List (String × Content)) (st : St) : St :=
  members.foldl (fun s m => writeFile s m.1 m.2) st

/-- The per-file verification loop after extraction: existence then
digest, per manifest files entry, in mapping order. -/
def checkExtractedFiles (w : World) : List (String × JVal) → St →
    Except SyncError Unit × St
  | [], st => (.ok (), st)
  | entry :: rest, st =>
    if ! fileExists st entry.1 then (.error (.missingExtractedFile entry.1), st)
    else
      match readFile st entry.1 with
      | none => (.error .typeError, st)
      | some c =>
        match jGet entry.2 "sha256" with
        | .error e => (.error e, st)
        | .ok hv =>
          if w.sha256 c ≠ pyStr hv then (.error (.checksumMismatch entry.1), st)
          else checkExtractedFiles w rest st

/-- _sync_from_legacy_manifest: validate, download the archive, check the
archive digest, extract, then verify each listed file. -/
def _sync_from_legacy_manifest (w : World) (base_url : String) (manifest : JVal)
    (st : St) : Except SyncError Unit × St :=
  match _verify_legacy_manifest manifest with
  | .error e => (.error e, st)
  | .ok _ =>
    match jGet manifest "archive" with
    | .error e => (.error e, st)
    | .ok av =>
      let archive_name := pyStr av
      match _download_file w (base_url ++ "/" ++ archive_name) archive_name st with
      | (.error e, st1) => (.error e, st1)
      | (.ok _, st1) =>
        match readFile st1 archive_name with
        | none => (.error .typeError, st1)
        | some archive_content =>
          match jGet manifest "archive_sha256" with
          | .error e => (.error e, st1)
          | .ok shaV =>
            if ! strEqJVal (w.sha256 archive_content) shaV then
              (.error .archiveChecksumMismatch, st1)
            else
              match unzipContent archive_content with
              | .error e => (.error e, st1)
              | .ok members =>
                let st2 := extractAll members st1
                match jGet manifest "files" with
                | .error e => (.error e, st2)
                | .ok fv =>
                  match fv with
                  | .obj file_entries => checkExtractedFiles w file_entries st2
                  | _ => (.error .typeError, st2)

/-! Current-schema sync (source lines 184-197). -/

/-- The dict comprehension indexing parquet-format table entries by
str(entry["file"]); a repeated file name keeps the later entry. -/
def buildParquetEntries (acc : List (String × JVal)) :
    List JVal → Except SyncError (List (String × JVal))
  | [] => .ok acc
  | entry :: rest =>
    match jGet entry "format" with
    | .error e => .error e
    | .ok fmt =>
      if pyStr fmt = "parquet" then
        match jGet entry "file" with
        | .error e => .error e
        | .ok f => buildParquetEntries (alistSet acc (pyStr f) entry) rest
      else buildParquetEntries acc rest

/-- The download loop over sorted(EXPECTED_DATASETS). -/
def downloadExpected (w : World) (base_url : String)
    (entries : List (String × JVal)) : List String → St →
    Except SyncError Unit × St
  | [], st => (.ok (), st)
  | name :: rest, st =>
    match alistGet entries name with
    | none => (.error (.keyError name), st)
    | some entry =>
      match _download_and_verify_file w base_url name entry st with
      | (.ok _, st1) => downloadExpected w base_url entries rest st1
      | (.error e, st1) => (.error e, st1)

/-- _sync_from_manifest: validate, index the parquet entries, check every
expected dataset is listed (the raised error carries the sorted missing
names), then download and verify each expected name in sorted order. -/
def _sync_from_manifest (w : World) (base_url : String) (manifest : JVal)
    (st : St) : Except SyncError Unit × St :=
  match _verify_manifest manifest with
  | .error e => (.error e, st)
  | .ok _ =>
    match jGet manifest "tables" with
    | .error e => (.error e, st)
    | .ok tv =>
      match tv with
      | .arr tables =>
        match buildParquetEntries [] tables with
        | .error e => (.error e, st)
        | .ok parquet_entries =>
          let missing_listed := (sortStrings EXPECTED_DATASETS).filter
            (fun name => (alistGet parquet_entries name).isNone)
          if missing_listed ≠ [] then
            (.error (.missingDatasetsInManifest missing_listed), st)
          else
            downloadExpected w base_url parquet_entries
              (sortStrings EXPECTED_DATASETS) st
      | _ => (.error .typeError, st)

/-! The cache coordinator (source lines 200-245). -/

/-- The content ensure_data writes to the completion marker
(marker.write_text("ok\n")). -/
def markerContent : Content := .text "ok\n"

/-- ensure_data: fast path on an existing marker, else wipe on force,
fetch and validate the manifest, sync, final existence check, then write
the marker and return the directory path.  The stderr progress prints are
elided (pure logging). -/
def ensure_data (w : World) (env : Env) (version : Option String) (force : Bool)
    (st : St) : Except SyncError String × St :=
  let resolved := _resolve_data_version env version
  let cache_dir := get_cache_dir env
  let data_dir := cache_dir ++ "/data/" ++ resolved
  if fileExists st ".complete" && ! force then (.ok data_dir, st)
  else
    let st1 := if force && st.dir.present then rmtree st else st
    let st2 := mkdirP st1
    let base_url := _resolve_base_url env resolved
    match _download_manifest w env resolved st2 with
    | (.error e, st3) => (.error e, st3)
    | (.ok mf, st3) =>
      match readFile st3 mf.1 with
      | none => (.error .jsonDecodeError, st3)
      | some mc =>
        match parseJson mc with
        | .error e => (.error e, st3)
        | .ok manifest =>
          match (if mf.2 then _sync_from_legacy_manifest w base_url manifest st3
                 else _sync_from_manifest w base_url manifest st3) with
          | (.error e, st4) => (.error e, st4)
          | (.ok _, st4) =>
            let missing_expected := (sortStrings EXPECTED_DATASETS).filter
              (fun name => ! fileExists st4 name)
            if missing_expected ≠ [] then
              (.error (.missingDatasetsInCache missing_expected), st4)
            else (.ok data_dir, writeFile st4 ".complete" markerContent)

/-! Basic lemmas about the association-list and filesystem primitives. -/

theorem alistGet_append {α : Type} (l1 l2 : List (String × α)) (k : String) :
    alistGet (l1 ++ l2) k =
      match alistGet l2 k with
      | some v => some v
      | none => alistGet l1 k := by
  induction l1 with
  | nil => cases h2 : alistGet l2 k <;> simp [alistGet, h2]
  | cons kv l1 ih =>
    have hstep : alistGet ((kv :: l1) ++ l2) k =
        match alistGet (l1 ++ l2) k with
        | some v => some v
        | none => if kv.1 = k then some kv.2 else none := rfl
    rw [hstep, ih]
    cases h2 : alistGet l2 k <;> cases h1 : alistGet l1 k <;> simp [alistGet, h1, h2]

theorem alistGet_replace {α : Type} (kvs : List (String × α)) (k : String) (v : α) :
    alistGet (kvs.map (fun kv => if kv.1 = k then (k, v) else kv)) k =
      if k ∈ kvs.map Prod.fst then some v else none := by
  induction kvs with
  | nil => simp [alistGet]
  | cons kv kvs ih =>
    by_cases hk : kv.1 = k
    · simp only [List.map_cons, hk, if_true, alistGet, ih]
      by_cases hmem : k ∈ kvs.map Prod.fst <;> simp [hmem, hk]
    · simp only [List.map_cons, if_neg hk, alistGet, ih]
      by_cases hmem : k ∈ kvs.map Prod.fst <;>
        simp [hmem, hk, Ne.symm hk]

theorem alistGet_replace_ne {α : Type} (kvs : List (String × α)) (k k' : String) (v : α)
    (h : k' ≠ k) :
    alistGet (kvs.map (fun kv => if kv.1 = k then (k, v) else kv)) k' =
      alistGet kvs k' := by
  induction kvs with
  | nil => rfl
  | cons kv kvs ih =>
    by_cases hk : kv.1 = k
    · simp only [List.map_cons, hk, if_true, alistGet, ih]
      cases alistGet kvs k' <;> simp [hk, Ne.symm h]
    · simp only [List.map_cons, if_neg hk, alistGet, ih]

theorem alistGet_set_self {α : Type} (kvs : List (String × α)) (k : String) (v : α) :
    alistGet (alistSet kvs k v) k = some v := by
  unfold alistSet
  by_cases hmem : k ∈ kvs.map Prod.fst
  · simp only [hmem, if_true, alistGet_replace, if_pos hmem]
  · simp only [hmem, if_false, alistGet_append]
    simp [alistGet]

theorem alistGet_set_ne {α : Type} (kvs : List (String × α)) (k k' : String) (v : α)
    (h : k' ≠ k) : alistGet (alistSet kvs k v) k' = alistGet kvs k' := by
  unfold alistSet
  by_cases hmem : k ∈ kvs.map Prod.fst
  · simp only [hmem, if_true, alistGet_replace_ne _ _ _ _ h]
  · simp only [hmem, if_false, alistGet_append]
    cases hg : alistGet kvs k' <;> simp [alistGet, Ne.symm h, hg]

theorem keys_alistSet {α : Type} (kvs : List (String × α)) (k : String) (v : α) :
    (alistSet kvs k v).map Prod.fst =
      if k ∈ kvs.map Prod.fst then kvs.map Prod.fst
      else kvs.map Prod.fst ++ [k] := by
  unfold alistSet
  by_cases hmem : k ∈ kvs.map Prod.fst <;> simp only [hmem, if_true, if_false]
  · simp only [List.map_map]
    apply List.map_congr_left
    intro kv _
    by_cases hk : kv.1 = k <;> simp [Function.comp, hk]
  · simp

theorem fileExists_mkdirP (st : St) (m : String) :
    fileExists (mkdirP st) m = fileExists st m := by
  unfold mkdirP fileExists
  by_cases hp : st.dir.present <;> simp [hp, alistGet]

theorem readFile_mkdirP (st : St) (m : String) :
    readFile (mkdirP st) m = readFile st m := by
  unfold mkdirP readFile
  by_cases hp : st.dir.present <;> simp [hp, alistGet]

theorem netLog_mkdirP (st : St) : (mkdirP st).netLog = st.netLog := by
  unfold mkdirP
  by_cases hp : st.dir.present <;> simp [hp]

theorem fileExists_writeFile_self (st : St) (n : String) (c : Content) :
    fileExists (writeFile st n c) n = true := by
  unfold writeFile fileExists
  simp [alistGet_set_self]

theorem readFile_writeFile_self (st : St) (n : String) (c : Content) :
    readFile (writeFile st n c) n = some c := by
  unfold writeFile readFile
  simp [alistGet_set_self]

theorem fileExists_writeFile_ne (st : St) (n m : String) (c : Content) (h : m ≠ n) :
    fileExists (writeFile st n c) m = fileExists st m := by
  unfold writeFile fileExists
  by_cases hp : st.dir.present <;> simp [hp, alistGet_set_ne _ _ _ _ h, alistGet]

theorem readFile_writeFile_ne (st : St) (n m : String) (c : Content) (h : m ≠ n) :
    readFile (writeFile st n c) m = readFile st m := by
  unfold writeFile readFile
  by_cases hp : st.dir.present <;> simp [hp, alistGet_set_ne _ _ _ _ h, alistGet]

theorem netLog_writeFile (st : St) (n : String) (c : Content) :
    (writeFile st n c).netLog = st.netLog := rfl

/-! Claim C8: data-version resolution. -/

/-- C8, counterexample: with no explicit argument, no environment override
and no installed package version, _resolve_data_version yields "v0.0.0",
not the claimed bare fallback "0.0.0" — the "v" prefix is applied to the
fallback value as well. -/
theorem C8_counterexample :
    _resolve_data_version ⟨none, "cache", none, none, none⟩ none = "v0.0.0" ∧
    _resolve_data_version ⟨none, "cache", none, none, none⟩ none ≠ "0.0.0" := by
  constructor
  · rfl
  · intro h
    exact absurd h (by decide)

/-- C8 (amended): the data version is resolved in priority order from the
explicit caller argument (used verbatim when non-empty), else the
environment override (verbatim when non-empty), else the installed package
version prefixed with "v" when that prefix is absent, else — when no
package version is available — the fallback "0.0.0", which also receives
the "v" prefix, yielding "v0.0.0". -/
theorem C8_resolve_data_version (env : Env) (version : Option String) :
    (∀ v, version = some v → v ≠ "" → _resolve_data_version env version = v) ∧
    ((version = none ∨ version = some "") →
      ∀ e, env.dataVersionEnv = some e → e ≠ "" →
        _resolve_data_version env version = e) ∧
    ((version = none ∨ version = some "") →
      (env.dataVersionEnv = none ∨ env.dataVersionEnv = some "") →
      ∀ p, env.pkgVersion = some p →
        _resolve_data_version env version =
          (if startsWithChar p 'v' then p else "v" ++ p)) ∧
    ((version = none ∨ version = some "") →
      (env.dataVersionEnv = none ∨ env.dataVersionEnv = some "") →
      env.pkgVersion = none →
      _resolve_data_version env version = "v0.0.0") := by
  refine ⟨?_, ?_, ?_, ?_⟩
  · intro v hv hne
    subst hv
    simp [_resolve_data_version, hne]
  · intro hv e he hne
    have hv0 : version.getD "" = "" := by rcases hv with h | h <;> simp [h]
    simp [_resolve_data_version, hv0, he, hne]
  · intro hv he p hp
    have hv0 : version.getD "" = "" := by rcases hv with h | h <;> simp [h]
    have he0 : env.dataVersionEnv.getD "" = "" := by rcases he with h | h <;> simp [h]
    simp [_resolve_data_version, _resolve_from_pkg, hv0, he0, hp]
  · intro hv he hp
    have hv0 : version.getD "" = "" := by rcases hv with h | h <;> simp [h]
    have he0 : env.dataVersionEnv.getD "" = "" := by rcases he with h | h <;> simp [h]
    simp [_resolve_data_version, _resolve_from_pkg, hv0, he0, hp]
    decide

/-- C8 witness: the amended theorem applied at concrete inputs, one per
priority leg. -/
theorem C8_resolve_data_version_witness :
    _resolve_data_version ⟨none, "c", some "ev", none, some "1.2.3"⟩ (some "arg") = "arg" ∧
    _resolve_data_version ⟨none, "c", some "ev", none, some "1.2.3"⟩ none = "ev" ∧
    _resolve_data_version ⟨none, "c", none, none, some "1.2.3"⟩ none = "v1.2.3" ∧
    _resolve_data_version ⟨none, "c", some "", none, none⟩ (some "") = "v0.0.0" := by
  refine ⟨?_, ?_, ?_, ?_⟩
  · exact (C8_resolve_data_version ⟨none, "c", some "ev", none, some "1.2.3"⟩
      (some "arg")).1 "arg" rfl (by decide)
  · exact (C8_resolve_data_version ⟨none, "c", some "ev", none, some "1.2.3"⟩
      none).2.1 (Or.inl rfl) "ev" rfl (by decide)
  · have := (C8_resolve_data_version ⟨none, "c", none, none, some "1.2.3"⟩
      none).2.2.1 (Or.inl rfl) (Or.inl rfl) "1.2.3" rfl
    simpa using this
  · exact (C8_resolve_data_version ⟨none, "c", some "", none, none⟩
      (some "")).2.2.2 (Or.inr rfl) (Or.inr rfl) rfl

/-! Claim C2: completion-marker fast path and idempotence. -/

/-- A world whose network always fails: useful to show the fast path never
touches the network. -/
def nullWorld : World :=
  { net := fun _ => .error .transport, sha256 := fun _ => "", fsize := fun _ => 0 }

/-- Every successful ensure_data call returns the cache directory path and
leaves the completion marker present. -/
theorem ensure_data_ok (w : World) (env : Env) (version : Option String)
    (force : Bool) (st : St) (p : String) (st1 : St)
    (h : ensure_data w env version force st = (.ok p, st1)) :
    p = get_cache_dir env ++ "/data/" ++ _resolve_data_version env version ∧
    fileExists st1 ".complete" = true := by
  unfold ensure_data at h
  by_cases hfast : (fileExists st ".complete" && ! force) = true
  · rw [if_pos hfast] at h
    simp only [Prod.mk.injEq, Except.ok.injEq] at h
    obtain ⟨hp, hst⟩ := h
    subst hp hst
    exact ⟨rfl, (Bool.and_eq_true ..).mp hfast |>.1⟩
  · rw [if_neg hfast] at h
    dsimp only at h
    repeat' split at h
    all_goals simp_all [fileExists_writeFile_self]
    all_goals (rw [← h.2]; exact fileExists_writeFile_self _ _ _)

/-- C2: when the completion marker exists and force is false, ensure_data
returns the cache directory path with the state (directory contents and
network log) unchanged; consequently a second non-forced call after any
successful call returns the same path and changes nothing. -/
theorem C2_fast_path_idempotent (w : World) (env : Env) (version : Option String)
    (st : St) :
    (fileExists st ".complete" = true →
      ensure_data w env version false st =
        (.ok (get_cache_dir env ++ "/data/" ++ _resolve_data_version env version), st)) ∧
    (∀ p st1, ensure_data w env version false st = (.ok p, st1) →
      ensure_data w env version false st1 = (.ok p, st1)) := by
  constructor
  · intro hmark
    unfold ensure_data
    rw [if_pos (by simp [hmark])]
  · intro p st1 h
    obtain ⟨hp, hmark⟩ := ensure_data_ok w env version false st p st1 h
    unfold ensure_data
    rw [if_pos (by simp [hmark]), hp]

/-- C2 witness: on a state already carrying the marker, a call against a
dead network succeeds immediately and changes nothing; a second call
after it behaves identically. -/
theorem C2_fast_path_idempotent_witness :
    ensure_data nullWorld ⟨some "/c", "p", none, none, none⟩ (some "v1") false
        ⟨⟨true, [(".complete", Content.text "ok\n")]⟩, []⟩ =
      (.ok "/c/data/v1", ⟨⟨true, [(".complete", Content.text "ok\n")]⟩, []⟩) ∧
    (ensure_data nullWorld ⟨some "/c", "p", none, none, none⟩ (some "v1") false
        ⟨⟨true, [(".complete", Content.text "ok\n")]⟩, []⟩ =
      (.ok "/c/data/v1", ⟨⟨true, [(".complete", Content.text "ok\n")]⟩, []⟩) →
    ensure_data nullWorld ⟨some "/c", "p", none, none, none⟩ (some "v1") false
        ⟨⟨true, [(".complete", Content.text "ok\n")]⟩, []⟩ =
      (.ok "/c/data/v1", ⟨⟨true, [(".complete", Content.text "ok\n")]⟩, []⟩)) := by
  constructor
  · exact (C2_fast_path_idempotent nullWorld ⟨some "/c", "p", none, none, none⟩
      (some "v1") ⟨⟨true, [(".complete", Content.text "ok\n")]⟩, []⟩).1 (by decide)
  · exact fun h => (C2_fast_path_idempotent nullWorld ⟨some "/c", "p", none, none, none⟩
      (some "v1") ⟨⟨true, [(".complete", Content.text "ok\n")]⟩, []⟩).2 _ _ h

/-! Claim C3: manifest fetch with legacy fallback exactly on 404. -/

/-- C3: the current-schema manifest download is attempted first; the
legacy manifest is attempted exactly when that download fails with an
HTTPStatusError carrying status 404.  A success returns is_legacy = false;
after a 404 the legacy outcome is returned with is_legacy = true; every
other failure (transport error, HTTPStatusError without response, other
status) propagates unchanged with no legacy request issued. -/
theorem C3_download_manifest (w : World) (env : Env) (version : String) (st : St) :
    (∀ c, w.net (_resolve_base_url env version ++ "/" ++ MANIFEST_NAME) = .ok c →
      (_download_manifest w env version st).1 = .ok (MANIFEST_NAME, false)) ∧
    (w.net (_resolve_base_url env version ++ "/" ++ MANIFEST_NAME) =
        .error (.status 404) →
      (∀ c2, w.net (_resolve_base_url env version ++ "/" ++ LEGACY_MANIFEST_NAME) =
          .ok c2 →
        (_download_manifest w env version st).1 = .ok (LEGACY_MANIFEST_NAME, true)) ∧
      (∀ e2, w.net (_resolve_base_url env version ++ "/" ++ LEGACY_MANIFEST_NAME) =
          .error e2 →
        (_download_manifest w env version st).1 = .error (.http e2))) ∧
    (∀ e, w.net (_resolve_base_url env version ++ "/" ++ MANIFEST_NAME) = .error e →
      e ≠ .status 404 →
      _download_manifest w env version st =
        (.error (.http e),
         { dir := (mkdirP st).dir,
           netLog := st.netLog ++
             [_resolve_base_url env version ++ "/" ++ MANIFEST_NAME] })) ∧
    (∀ name, (_download_manifest w env version st).1 = .ok (name, true) →
      w.net (_resolve_base_url env version ++ "/" ++ MANIFEST_NAME) =
        .error (.status 404)) := by
  refine ⟨?_, ?_, ?_, ?_⟩
  · intro c hc
    unfold _download_manifest _download_file
    simp [hc]
  · intro h404
    constructor
    · intro c2 hc2
      unfold _download_manifest _download_file
      simp [h404, hc2, mkdirP]
    · intro e2 he2
      unfold _download_manifest _download_file
      simp [h404, he2, mkdirP]
  · intro e he hne
    unfold _download_manifest _download_file
    rcases e with code | _ | _
    · have hcode : code ≠ 404 := fun h => hne (by rw [h])
      simp [he, hcode, netLog_mkdirP]
    · simp [he, netLog_mkdirP]
    · simp [he, netLog_mkdirP]
  · intro name hname
    unfold _download_manifest _download_file at hname
    dsimp only at hname
    cases hnet : w.net (_resolve_base_url env version ++ "/" ++ MANIFEST_NAME) with
    | ok c =>
      rw [hnet] at hname
      simp at hname
    | error e =>
      rw [hnet] at hname
      rcases e with code | _ | _
      · by_cases hc : code = 404
        · rw [hc]
        · simp [hc] at hname
      · simp at hname
      · simp at hname

/-- A small network for the C3 witness: the current manifest 404s, the
legacy manifest downloads. -/
def c3world : World :=
  { net := fun url =>
      if url = DEFAULT_BASE_URL ++ "/v9" ++ "/" ++ MANIFEST_NAME then
        .error (.status 404)
      else if url = DEFAULT_BASE_URL ++ "/v9" ++ "/" ++ LEGACY_MANIFEST_NAME then
        .ok (.text "m")
      else .error .transport,
    sha256 := fun _ => "", fsize := fun _ => 0 }

/-- C3 witness: the theorem applied to c3world yields the legacy fallback. -/
theorem C3_download_manifest_witness :
    (_download_manifest c3world ⟨none, "c", none, none, none⟩ "v9" ⟨⟨false, []⟩, []⟩).1 =
      .ok (LEGACY_MANIFEST_NAME, true) :=
  ((C3_download_manifest c3world ⟨none, "c", none, none, none⟩ "v9"
      ⟨⟨false, []⟩, []⟩).2.1 rfl).1 (.text "m") rfl

/-! Claim C10: duplicate file names in the parquet index. -/

/-- Whether a table entry is a parquet-format entry for the given file
name, applying the same str() casts as the dict comprehension. -/
def isParquetFor (name : String) (t : JVal) : Bool :=
  match jGet t "format", jGet t "file" with
  | .ok fmt, .ok f => pyStr fmt = "parquet" && pyStr f = name
  | _, _ => false

/-- Generalized characterization of the parquet index built by the dict
comprehension: looking up a name yields the last matching table entry,
falling back to the accumulator. -/
theorem buildParquetEntries_lookup (name : String) :
    ∀ (tables : List JVal) (acc entries : List (String × JVal)),
    buildParquetEntries acc tables = .ok entries →
    alistGet entries name =
      match tables.reverse.find? (isParquetFor name) with
      | some t => some t
      | none => alistGet acc name := by
  intro tables
  induction tables with
  | nil =>
    intro acc entries h
    simp only [buildParquetEntries, Except.ok.injEq] at h
    subst h
    simp
  | cons t ts ih =>
    intro acc entries h
    unfold buildParquetEntries at h
    simp only [List.reverse_cons, List.find?_append]
    cases hfmt : jGet t "format" with
    | error e => rw [hfmt] at h; exact absurd h (by simp)
    | ok fmt =>
      rw [hfmt] at h
      dsimp only at h
      by_cases hpq : pyStr fmt = "parquet"
      · rw [if_pos hpq] at h
        cases hfile : jGet t "file" with
        | error e => rw [hfile] at h; exact absurd h (by simp)
        | ok f =>
          rw [hfile] at h
          dsimp only at h
          have hstep := ih (alistSet acc (pyStr f) t) entries h
          rw [hstep]
          cases hrec : ts.reverse.find? (isParquetFor name) with
          | some t2 => simp [hrec]
          | none =>
            simp only [hrec, Option.none_or]
            by_cases hname : pyStr f = name
            · have hfind : [t].find? (isParquetFor name) = some t := by
                simp [List.find?, isParquetFor, hfmt, hfile, hpq, hname]
              rw [hfind]
              rw [← hname]
              exact alistGet_set_self acc (pyStr f) t
            · have hfind : [t].find? (isParquetFor name) = none := by
                simp [List.find?, isParquetFor, hfmt, hfile, hpq, hname]
              rw [hfind]
              exact alistGet_set_ne acc (pyStr f) name t (fun e => hname e.symm)
      · rw [if_neg hpq] at h
        have hstep := ih acc entries h
        rw [hstep]
        cases hrec : ts.reverse.find? (isParquetFor name) with
        | some t2 => simp [hrec]
        | none =>
          simp only [hrec, Option.none_or]
          have hfind : [t].find? (isParquetFor name) = none := by
            cases hfile : jGet t "file" <;>
              simp [List.find?, isParquetFor, hfmt, hfile, hpq]
          rw [hfind]

/-- C10: when the manifest's tables hold several parquet entries with the
same file name, the index the comprehension builds maps that name to the
entry occurring last in the list (earlier duplicates are overwritten), and
this index is exactly what the sync passes to per-file verification. -/
theorem C10_last_duplicate_wins (tables : List JVal) (entries : List (String × JVal))
    (name : String) (h : buildParquetEntries [] tables = .ok entries) :
    alistGet entries name = tables.reverse.find? (isParquetFor name) := by
  have := buildParquetEntries_lookup name tables [] entries h
  rw [this]
  cases tables.reverse.find? (isParquetFor name) <;> simp [alistGet]

/-- Two parquet entries for the same file name, different digests. -/
def dupEntryA : JVal :=
  .obj [("name", .str "x"), ("file", .str "a"), ("format", .str "parquet"),
        ("size_bytes", .num 1), ("sha256", .str "A")]

/-- Later duplicate of dupEntryA with a different digest. -/
def dupEntryB : JVal :=
  .obj [("name", .str "y"), ("file", .str "a"), ("format", .str "parquet"),
        ("size_bytes", .num 2), ("sha256", .str "B")]

/-- C10 witness: on a two-element duplicate list the index holds the later
entry. -/
theorem C10_last_duplicate_wins_witness :
    alistGet [("a", dupEntryB)] "a" =
      [dupEntryA, dupEntryB].reverse.find? (isParquetFor "a") ∧
    [dupEntryA, dupEntryB].reverse.find? (isParquetFor "a") = some dupEntryB :=
  ⟨C10_last_duplicate_wins [dupEntryA, dupEntryB] [("a", dupEntryB)] "a" rfl, rfl⟩

/-! Claim C6: the manifest validators. -/

theorem mem_insertSorted (a x : String) (l : List String) :
    a ∈ insertSorted x l ↔ a = x ∨ a ∈ l := by
  induction l with
  | nil => simp [insertSorted]
  | cons y ys ih =>
    unfold insertSorted
    by_cases h : strLe x y = true
    · rw [if_pos h]
      simp
    · rw [if_neg h]
      simp only [List.mem_cons, ih]
      tauto

theorem mem_sortStrings (a : String) (xs : List String) :
    a ∈ sortStrings xs ↔ a ∈ xs := by
  induction xs with
  | nil => simp [sortStrings]
  | cons x xs ih =>
    have hc : sortStrings (x :: xs) = insertSorted x (sortStrings xs) := rfl
    rw [hc, mem_insertSorted]
    simp [ih]

theorem alistGet_isSome_iff {α : Type} (kvs : List (String × α)) (k : String) :
    (alistGet kvs k).isSome = true ↔ k ∈ kvs.map Prod.fst := by
  induction kvs with
  | nil => simp [alistGet]
  | cons kv kvs ih =>
    cases h : alistGet kvs k with
    | some v =>
      have : k ∈ kvs.map Prod.fst := ih.mp (by simp [h])
      simp [alistGet, h, this]
    | none =>
      have hnot : ¬ k ∈ kvs.map Prod.fst := fun hm => by
        have := ih.mpr hm
        rw [h] at this
        exact absurd this (by simp)
      by_cases hk : kv.1 = k
      · simp [alistGet, h, hk, hnot]
      · simp [alistGet, h, hk, hnot, Ne.symm hk]

theorem hasKey_iff_lookup (kvs : List (String × JVal)) (k : String) :
    hasKey kvs k = true ↔ (alistGet kvs k).isSome = true := by
  rw [alistGet_isSome_iff]
  simp [hasKey]

/-- The missing-keys list is always sorted, provided the sorted required
list is (true for all three concrete key sets of the source). -/
theorem strSorted_missingKeys (required : List String) (kvs : List (String × JVal))
    (h : StrSorted (sortStrings required)) : StrSorted (missingKeys required kvs) :=
  List.Pairwise.filter _ h

/-- A key is reported missing exactly when it is required and absent. -/
theorem mem_missingKeys (required : List String) (kvs : List (String × JVal))
    (k : String) :
    k ∈ missingKeys required kvs ↔ k ∈ required ∧ hasKey kvs k = false := by
  unfold missingKeys
  rw [List.mem_filter, mem_sortStrings]
  simp

theorem missingKeys_eq_nil (required : List String) (kvs : List (String × JVal)) :
    missingKeys required kvs = [] ↔ ∀ k ∈ required, hasKey kvs k = true := by
  constructor
  · intro h k hk
    by_cases hh : hasKey kvs k = true
    · exact hh
    · have : k ∈ missingKeys required kvs :=
        (mem_missingKeys required kvs k).mpr ⟨hk, by simpa using hh⟩
      rw [h] at this
      exact absurd this (by simp)
  · intro h
    rcases hm : missingKeys required kvs with _ | ⟨k, ks⟩
    · rfl
    · have hk : k ∈ missingKeys required kvs := by rw [hm]; exact List.mem_cons_self _ _
      have := (mem_missingKeys required kvs k).mp hk
      rw [h k this.1] at this
      exact absurd this.2 (by simp)

/-- What the spec requires of a current-schema manifest (spec section 4.3):
all required top-level keys present, tables a non-empty sequence whose
entries are objects holding all required table keys. -/
def SpecValidCurrent (kvs : List (String × JVal)) : Prop :=
  (∀ k ∈ requiredManifestKeys, hasKey kvs k = true) ∧
  ∃ tables, alistGet kvs "tables" = some (.arr tables) ∧ tables ≠ [] ∧
    ∀ t ∈ tables, ∃ tkvs, t = JVal.obj tkvs ∧
      ∀ k ∈ requiredTableKeys, hasKey tkvs k = true

/-- What the spec requires of a legacy manifest: the three required keys
present and files a non-empty mapping. -/
def SpecValidLegacy (kvs : List (String × JVal)) : Prop :=
  (∀ k ∈ requiredLegacyKeys, hasKey kvs k = true) ∧
  ∃ files, alistGet kvs "files" = some (.obj files) ∧ files ≠ []

theorem verifyTables_ok_iff (ts : List JVal) :
    verifyTables ts = .ok () ↔
      ∀ t ∈ ts, ∃ tkvs, t = JVal.obj tkvs ∧
        missingKeys requiredTableKeys tkvs = [] := by
  induction ts with
  | nil => simp [verifyTables]
  | cons t ts ih =>
    cases t with
    | obj tkvs =>
      by_cases hm : missingKeys requiredTableKeys tkvs = []
      · simp [verifyTables, hm, ih]
      · simp only [verifyTables, if_pos (by simpa using hm)]
        constructor
        · intro h
          exact absurd h (by simp)
        · intro h
          obtain ⟨tkvs2, ht2, hm2⟩ := h (JVal.obj tkvs) (List.mem_cons_self _ _)
          cases ht2
          exact absurd hm2 hm
    | str s => simp [verifyTables]
    | num n => simp [verifyTables]
    | bool b => simp [verifyTables]
    | null => simp [verifyTables]
    | arr xs => simp [verifyTables]

theorem verifyTables_missing_error (ts : List JVal) (ms : List String)
    (h : verifyTables ts = .error (.invalidTableEntryMissingKeys ms)) :
    ∃ tkvs, JVal.obj tkvs ∈ ts ∧ ms = missingKeys requiredTableKeys tkvs ∧
      ms ≠ [] := by
  induction ts with
  | nil => exact absurd h (by simp [verifyTables])
  | cons t ts ih =>
    cases t with
    | obj tkvs =>
      by_cases hm : missingKeys requiredTableKeys tkvs = []
      · rw [show verifyTables (JVal.obj tkvs :: ts) = verifyTables ts by
            simp [verifyTables, hm]] at h
        obtain ⟨tkvs2, hmem, hrest⟩ := ih h
        exact ⟨tkvs2, List.mem_cons_of_mem _ hmem, hrest⟩
      · rw [show verifyTables (JVal.obj tkvs :: ts) =
            .error (.invalidTableEntryMissingKeys
              (missingKeys requiredTableKeys tkvs)) by
            simp [verifyTables, hm]] at h
        simp only [Except.error.injEq, SyncError.invalidTableEntryMissingKeys.injEq] at h
        exact ⟨tkvs, List.mem_cons_self _ _, h.symm, h ▸ hm⟩
    | str s => exact absurd h (by simp [verifyTables])
    | num n => exact absurd h (by simp [verifyTables])
    | bool b => exact absurd h (by simp [verifyTables])
    | null => exact absurd h (by simp [verifyTables])
    | arr xs => exact absurd h (by simp [verifyTables])

theorem verifyTables_no_top_error (ts : List JVal) (ms : List String) :
    verifyTables ts ≠ .error (.invalidManifestMissingKeys ms) := by
  induction ts with
  | nil => simp [verifyTables]
  | cons t ts ih =>
    cases t <;> simp [verifyTables]
    case obj tkvs =>
      by_cases hm : missingKeys requiredTableKeys tkvs = [] <;> simp [hm, ih]

/-- C6: both validators are pure structural checks.  Success is exactly
the structural requirement the spec states (so a manifest with all
required keys and a well-formed non-empty tables list / files mapping
passes); a top-level missing-keys error carries exactly the sorted list of
absent required keys; a table-entry missing-keys error carries exactly the
sorted keys absent from some table entry; a present but non-list or empty
tables value (non-mapping or empty files value) raises the corresponding
structural error.  The validators only read the manifest — in this
embedding they are plain functions of it, with no way to mutate it. -/
theorem C6_validators (kvs : List (String × JVal)) :
    (_verify_manifest (.obj kvs) = .ok () ↔ SpecValidCurrent kvs) ∧
    (_verify_legacy_manifest (.obj kvs) = .ok () ↔ SpecValidLegacy kvs) ∧
    (∀ ms, _verify_manifest (.obj kvs) = .error (.invalidManifestMissingKeys ms) ↔
      (ms = missingKeys requiredManifestKeys kvs ∧ ms ≠ [])) ∧
    (∀ ms, _verify_legacy_manifest (.obj kvs) =
        .error (.invalidLegacyMissingKeys ms) ↔
      (ms = missingKeys requiredLegacyKeys kvs ∧ ms ≠ [])) ∧
    (∀ ms, _verify_manifest (.obj kvs) =
        .error (.invalidTableEntryMissingKeys ms) →
      ∃ tables tkvs, alistGet kvs "tables" = some (.arr tables) ∧
        JVal.obj tkvs ∈ tables ∧ ms = missingKeys requiredTableKeys tkvs ∧
        ms ≠ []) ∧
    (missingKeys requiredManifestKeys kvs = [] →
      ∀ v, alistGet kvs "tables" = some v →
        (v = .arr [] ∨ (∀ ts, v ≠ .arr ts)) →
        _verify_manifest (.obj kvs) = .error .invalidTables) ∧
    (missingKeys requiredLegacyKeys kvs = [] →
      ∀ v, alistGet kvs "files" = some v →
        (v = .obj [] ∨ (∀ fs, v ≠ .obj fs)) →
        _verify_legacy_manifest (.obj kvs) = .error .invalidLegacyFiles) ∧
    (StrSorted (missingKeys requiredManifestKeys kvs) ∧
     StrSorted (missingKeys requiredLegacyKeys kvs) ∧
     ∀ k, k ∈ missingKeys requiredManifestKeys kvs ↔
       (k ∈ requiredManifestKeys ∧ hasKey kvs k = false)) := by
  refine ⟨?_, ?_, ?_, ?_, ?_, ?_, ?_, ?_, ?_, ?_⟩
  · -- ok ↔ SpecValidCurrent
    unfold _verify_manifest
    dsimp only
    by_cases hm : missingKeys requiredManifestKeys kvs = []
    · rw [if_neg (by simpa using hm)]
      cases hv : alistGet kvs "tables" with
      | none =>
        constructor
        · intro h
          exact absurd h (by simp)
        · rintro ⟨-, ts, hts, -⟩
          rw [hv] at hts
          exact absurd hts (by simp)
      | some v =>
        cases v with
        | arr ts =>
          dsimp only
          by_cases hts : ts.isEmpty
          · rw [if_pos hts]
            constructor
            · intro h
              exact absurd h (by simp)
            · rintro ⟨-, ts2, hts2, hne2, -⟩
              rw [hv] at hts2
              simp only [Option.some.injEq, JVal.arr.injEq] at hts2
              subst hts2
              exact (hne2 (List.isEmpty_iff.mp hts)).elim
          · rw [if_neg hts]
            rw [verifyTables_ok_iff]
            constructor
            · intro h
              refine ⟨(missingKeys_eq_nil _ _).mp hm, ts, hv, ?_, ?_⟩
              · intro he
                subst he
                exact hts rfl
              · intro t ht
                obtain ⟨tkvs, ht2, hm2⟩ := h t ht
                exact ⟨tkvs, ht2, (missingKeys_eq_nil _ _).mp hm2⟩
            · rintro ⟨-, ts2, hts2, -, hall⟩
              rw [hv] at hts2
              simp only [Option.some.injEq, JVal.arr.injEq] at hts2
              subst hts2
              intro t ht
              obtain ⟨tkvs, ht2, hk2⟩ := hall t ht
              exact ⟨tkvs, ht2, (missingKeys_eq_nil _ _).mpr hk2⟩
        | str s =>
          constructor
          · intro h; exact absurd h (by simp)
          · rintro ⟨-, ts, hts, -⟩
            rw [hv] at hts
            exact absurd hts (by simp)
        | num n =>
          constructor
          · intro h; exact absurd h (by simp)
          · rintro ⟨-, ts, hts, -⟩
            rw [hv] at hts
            exact absurd hts (by simp)
        | bool b =>
          constructor
          · intro h; exact absurd h (by simp)
          · rintro ⟨-, ts, hts, -⟩
            rw [hv] at hts
            exact absurd hts (by simp)
        | null =>
          constructor
          · intro h; exact absurd h (by simp)
          · rintro ⟨-, ts, hts, -⟩
            rw [hv] at hts
            exact absurd hts (by simp)
        | obj o =>
          constructor
          · intro h; exact absurd h (by simp)
          · rintro ⟨-, ts, hts, -⟩
            rw [hv] at hts
            exact absurd hts (by simp)
    · rw [if_pos (by simpa using hm)]
      constructor
      · intro h
        exact absurd h (by simp)
      · rintro ⟨hall, -⟩
        exact absurd ((missingKeys_eq_nil _ _).mpr hall) hm
  · -- legacy ok ↔ SpecValidLegacy
    unfold _verify_legacy_manifest
    dsimp only
    by_cases hm : missingKeys requiredLegacyKeys kvs = []
    · rw [if_neg (by simpa using hm)]
      cases hv : alistGet kvs "files" with
      | none =>
        constructor
        · intro h; exact absurd h (by simp)
        · rintro ⟨-, fs, hfs, -⟩
          rw [hv] at hfs
          exact absurd hfs (by simp)
      | some v =>
        cases v with
        | obj fs =>
          dsimp only
          by_cases hfs : fs.isEmpty
          · rw [if_pos hfs]
            constructor
            · intro h; exact absurd h (by simp)
            · rintro ⟨-, fs2, hfs2, hne2⟩
              rw [hv] at hfs2
              simp only [Option.some.injEq, JVal.obj.injEq] at hfs2
              subst hfs2
              exact (hne2 (List.isEmpty_iff.mp hfs)).elim
          · rw [if_neg hfs]
            constructor
            · intro _
              refine ⟨(missingKeys_eq_nil _ _).mp hm, fs, hv, ?_⟩
              intro he
              subst he
              exact hfs rfl
            · intro _
              rfl
        | str s =>
          constructor
          · intro h; exact absurd h (by simp)
          · rintro ⟨-, fs, hfs, -⟩
            rw [hv] at hfs
            exact absurd hfs (by simp)
        | num n =>
          constructor
          · intro h; exact absurd h (by simp)
          · rintro ⟨-, fs, hfs, -⟩
            rw [hv] at hfs
            exact absurd hfs (by simp)
        | bool b =>
          constructor
          · intro h; exact absurd h (by simp)
          · rintro ⟨-, fs, hfs, -⟩
            rw [hv] at hfs
            exact absurd hfs (by simp)
        | null =>
          constructor
          · intro h; exact absurd h (by simp)
          · rintro ⟨-, fs, hfs, -⟩
            rw [hv] at hfs
            exact absurd hfs (by simp)
        | arr xs =>
          constructor
          · intro h; exact absurd h (by simp)
          · rintro ⟨-, fs, hfs, -⟩
            rw [hv] at hfs
            exact absurd hfs (by simp)
    · rw [if_pos (by simpa using hm)]
      constructor
      · intro h; exact absurd h (by simp)
      · rintro ⟨hall, -⟩
        exact absurd ((missingKeys_eq_nil _ _).mpr hall) hm
  · -- top-level missing-keys error, current
    intro ms
    unfold _verify_manifest
    dsimp only
    by_cases hm : missingKeys requiredManifestKeys kvs = []
    · rw [if_neg (by simpa using hm)]
      constructor
      · intro h
        exfalso
        cases hv : alistGet kvs "tables" with
        | none => rw [hv] at h; exact absurd h (by simp)
        | some v =>
          rw [hv] at h
          cases v with
          | arr ts =>
            dsimp only at h
            by_cases hts : ts.isEmpty
            · rw [if_pos hts] at h
              exact absurd h (by simp)
            · rw [if_neg hts] at h
              exact verifyTables_no_top_error ts ms h
          | str s => exact absurd h (by simp)
          | num n => exact absurd h (by simp)
          | bool b => exact absurd h (by simp)
          | null => exact absurd h (by simp)
          | obj o => exact absurd h (by simp)
      · rintro ⟨hms, hne⟩
        exact absurd (hms.symm ▸ hm) hne
    · rw [if_pos (by simpa using hm)]
      constructor
      · intro h
        simp only [Except.error.injEq, SyncError.invalidManifestMissingKeys.injEq] at h
        exact ⟨h.symm, h ▸ hm⟩
      · rintro ⟨hms, -⟩
        rw [hms]
  · -- top-level missing-keys error, legacy
    intro ms
    unfold _verify_legacy_manifest
    dsimp only
    by_cases hm : missingKeys requiredLegacyKeys kvs = []
    · rw [if_neg (by simpa using hm)]
      constructor
      · intro h
        exfalso
        cases hv : alistGet kvs "files" with
        | none => rw [hv] at h; exact absurd h (by simp)
        | some v =>
          rw [hv] at h
          cases v with
          | obj fs =>
            dsimp only at h
            by_cases hfs : fs.isEmpty
            · rw [if_pos hfs] at h
              exact absurd h (by simp)
            · rw [if_neg hfs] at h
              exact absurd h (by simp)
          | str s => exact absurd h (by simp)
          | num n => exact absurd h (by simp)
          | bool b => exact absurd h (by simp)
          | null => exact absurd h (by simp)
          | arr xs => exact absurd h (by simp)
      · rintro ⟨hms, hne⟩
        exact absurd (hms.symm ▸ hm) hne
    · rw [if_pos (by simpa using hm)]
      constructor
      · intro h
        simp only [Except.error.injEq, SyncError.invalidLegacyMissingKeys.injEq] at h
        exact ⟨h.symm, h ▸ hm⟩
      · rintro ⟨hms, -⟩
        rw [hms]
  · -- table-entry missing-keys error
    intro ms h
    unfold _verify_manifest at h
    dsimp only at h
    by_cases hm : missingKeys requiredManifestKeys kvs = []
    · rw [if_neg (by simpa using hm)] at h
      cases hv : alistGet kvs "tables" with
      | none => rw [hv] at h; exact absurd h (by simp)
      | some v =>
        rw [hv] at h
        cases v with
        | arr ts =>
          dsimp only at h
          by_cases hts : ts.isEmpty
          · rw [if_pos hts] at h
            exact absurd h (by simp)
          · rw [if_neg hts] at h
            obtain ⟨tkvs, hmem, hrest⟩ := verifyTables_missing_error ts ms h
            exact ⟨ts, tkvs, rfl, hmem, hrest⟩
        | str s => exact absurd h (by simp)
        | num n => exact absurd h (by simp)
        | bool b => exact absurd h (by simp)
        | null => exact absurd h (by simp)
        | obj o => exact absurd h (by simp)
    · rw [if_pos (by simpa using hm)] at h
      exact absurd h (by simp)
  · -- tables present but not a non-empty list
    intro hm v hv hbad
    unfold _verify_manifest
    dsimp only
    rw [if_neg (by simpa using hm), hv]
    rcases hbad with hbad | hbad
    · subst hbad
      simp
    · cases v <;> first
      | rfl
      | exact absurd rfl (hbad _)
  · -- files present but not a non-empty mapping
    intro hm v hv hbad
    unfold _verify_legacy_manifest
    dsimp only
    rw [if_neg (by simpa using hm), hv]
    rcases hbad with hbad | hbad
    · subst hbad
      simp
    · cases v <;> first
      | rfl
      | exact absurd rfl (hbad _)
  · exact strSorted_missingKeys _ _ (by unfold StrSorted; decide)
  · exact strSorted_missingKeys _ _ (by unfold StrSorted; decide)
  · exact fun k => mem_missingKeys _ _ k

/-- A manifest object holding only one of the required keys. -/
def c6kvs : List (String × JVal) := [("spec_version", .str "1")]

/-- A well-formed legacy manifest object. -/
def c6legacy : List (String × JVal) :=
  [("archive", .str "a.zip"), ("archive_sha256", .str "h"),
   ("files", .obj [("f.parquet", .obj [("sha256", .str "s"), ("size_bytes", .num 1)])])]

/-- C6 witness: on a manifest with one key the validator reports the other
eight in sorted order; a structurally complete legacy manifest passes. -/
theorem C6_validators_witness :
    _verify_manifest (.obj c6kvs) = .error (.invalidManifestMissingKeys
      ["assets_base_url", "data_version", "dataset_id", "homepage", "license",
       "published_at", "release_tag", "tables"]) ∧
    _verify_legacy_manifest (.obj c6legacy) = .ok () := by
  constructor
  · exact ((C6_validators c6kvs).2.2.1 _).mpr ⟨by decide, by decide⟩
  · exact ((C6_validators c6legacy).2.1).mpr
      ⟨by decide, [("f.parquet", .obj [("sha256", .str "s"), ("size_bytes", .num 1)])],
       rfl, by simp⟩

/-! Concrete release data shared by several witnesses: a well-formed
current-schema release for version v1 with six one-byte files. -/

/-- A well-formed parquet table entry for file n with digest "sha-" ++ n. -/
def entryFor (n : String) : JVal :=
  .obj [("name", .str n), ("file", .str n), ("format", .str "parquet"),
        ("size_bytes", .num 1), ("sha256", .str ("sha-" ++ n))]

def demoTables : List JVal := (sortStrings EXPECTED_DATASETS).map entryFor

def demoKvs : List (String × JVal) :=
  [("spec_version", .str "1"), ("dataset_id", .str "d"),
   ("data_version", .str "v1"), ("release_tag", .str "v1"),
   ("published_at", .str "t"), ("license", .str "L"),
   ("homepage", .str "h"), ("assets_base_url", .str "u"),
   ("tables", .arr demoTables)]

def demoManifest : JVal := .obj demoKvs

def demoEnv : Env := ⟨some "/c", "p", none, none, none⟩

def demoBase : String := DEFAULT_BASE_URL ++ "/v1"

/-- A network serving the demo manifest and its six files, with a hasher
assigning each served file its manifest digest. -/
def demoWorld : World :=
  { net := fun url =>
      if url = demoBase ++ "/" ++ MANIFEST_NAME then .ok (.json demoManifest)
      else if ((sortStrings EXPECTED_DATASETS).map
          (fun n => demoBase ++ "/" ++ n)).contains url then .ok (.text url)
      else .error .transport,
    sha256 := fun c =>
      match c with
      | .text s => "sha-" ++ (s.drop (demoBase.length + 1))
      | _ => "x",
    fsize := fun _ => 1 }

def emptySt : St := ⟨⟨false, []⟩, []⟩

/-! Claim C7: the completion marker content. -/

/-- Stored byte size of a file where the content determines it. -/
def storedSize : Content → Option Nat
  | .bytes l => some l.length
  | .text s => some s.utf8ByteSize
  | _ => none

/-- C7, counterexample: a successful ensure_data run writes the marker
with the text "ok" plus newline — three bytes, not a zero-byte file. -/
theorem C7_counterexample :
    (ensure_data demoWorld demoEnv (some "v1") false emptySt).1 = .ok "/c/data/v1" ∧
    readFile (ensure_data demoWorld demoEnv (some "v1") false emptySt).2 ".complete" =
      some markerContent ∧
    storedSize markerContent = some 3 ∧ markerContent = .text "ok\n" :=
  ⟨rfl, rfl, by decide, rfl⟩

/-- C7 (amended): every ensure_data call that succeeds other than through
the marker fast path (that is, every call that actually writes the marker)
leaves the marker holding the 3-byte text "ok" plus newline; the marker is
a sentinel whose content is never read, but it is not zero-byte. -/
theorem C7_marker_is_ok_text (w : World) (env : Env) (version : Option String)
    (force : Bool) (st : St) (p : String) (st1 : St)
    (hslow : fileExists st ".complete" = false ∨ force = true)
    (h : ensure_data w env version force st = (.ok p, st1)) :
    readFile st1 ".complete" = some (.text "ok\n") := by
  unfold ensure_data at h
  have hcond : (fileExists st ".complete" && ! force) = false := by
    rcases hslow with h1 | h1 <;> simp [h1]
  rw [hcond] at h
  simp only [Bool.false_eq_true, if_false] at h
  repeat' split at h
  all_goals simp_all
  all_goals (rw [← h.2]; exact readFile_writeFile_self _ _ _)

/-- C7 witness: the amended theorem applied to the demo run. -/
theorem C7_marker_is_ok_text_witness :
    readFile (ensure_data demoWorld demoEnv (some "v1") false emptySt).2 ".complete" =
      some (.text "ok\n") :=
  C7_marker_is_ok_text demoWorld demoEnv (some "v1") false emptySt
    "/c/data/v1" (ensure_data demoWorld demoEnv (some "v1") false emptySt).2
    (Or.inl rfl) (by rfl)

/-! Claim C4: the current-schema sync. -/

/-- Every call to per-file download-and-verify issues exactly one request
for its file URL, whatever the outcome. -/
theorem netLog_download_and_verify (w : World) (b f : String) (e : JVal) (st : St) :
    ((_download_and_verify_file w b f e st).2).netLog =
      st.netLog ++ [b ++ "/" ++ f] := by
  unfold _download_and_verify_file _download_file
  dsimp only
  cases w.net (b ++ "/" ++ f) with
  | ok body =>
    dsimp only
    repeat' split
    all_goals simp [writeFile, netLog_writeFile, netLog_mkdirP]
  | error e2 =>
    dsimp only
    simp [netLog_mkdirP]

/-- On success the download loop requests exactly the listed names, in
list order. -/
theorem downloadExpected_ok_netLog (w : World) (b : String)
    (entries : List (String × JVal)) :
    ∀ (names : List String) (st st1 : St),
    downloadExpected w b entries names st = (.ok (), st1) →
    st1.netLog = st.netLog ++ names.map (fun n => b ++ "/" ++ n) := by
  intro names
  induction names with
  | nil =>
    intro st st1 h
    simp only [downloadExpected, Prod.mk.injEq] at h
    rw [← h.2]
    simp
  | cons name rest ih =>
    intro st st1 h
    unfold downloadExpected at h
    cases hget : alistGet entries name with
    | none => rw [hget] at h; exact absurd h (by simp)
    | some entry =>
      rw [hget] at h
      dsimp only at h
      rcases hdl : _download_and_verify_file w b name entry st with ⟨r, st2⟩
      rw [hdl] at h
      cases r with
      | error e => exact absurd h (by simp)
      | ok u =>
        have h2 := ih st2 st1 h
        have h3 : st2.netLog = st.netLog ++ [b ++ "/" ++ name] := by
          have hh := netLog_download_and_verify w b name entry st
          rw [hdl] at hh
          exact hh
        rw [h2, h3]
        simp

/-- Everything the parquet index holds came from the tables list, has
format "parquet", and is keyed by its own file name. -/
theorem buildParquetEntries_sound :
    ∀ (tables : List JVal) (acc entries : List (String × JVal)),
    buildParquetEntries acc tables = .ok entries →
    ∀ name e, alistGet entries name = some e →
      (e ∈ tables ∧ ∃ fmt f, jGet e "format" = .ok fmt ∧ pyStr fmt = "parquet" ∧
        jGet e "file" = .ok f ∧ pyStr f = name) ∨ alistGet acc name = some e := by
  intro tables
  induction tables with
  | nil =>
    intro acc entries h name e hget
    simp only [buildParquetEntries, Except.ok.injEq] at h
    subst h
    exact Or.inr hget
  | cons t ts ih =>
    intro acc entries h name e hget
    unfold buildParquetEntries at h
    cases hfmt : jGet t "format" with
    | error e2 => rw [hfmt] at h; exact absurd h (by simp)
    | ok fmt =>
      rw [hfmt] at h
      dsimp only at h
      by_cases hpq : pyStr fmt = "parquet"
      · rw [if_pos hpq] at h
        cases hfile : jGet t "file" with
        | error e2 => rw [hfile] at h; exact absurd h (by simp)
        | ok f =>
          rw [hfile] at h
          dsimp only at h
          rcases ih _ _ h name e hget with hl | hr
          · exact Or.inl ⟨List.mem_cons_of_mem _ hl.1, hl.2⟩
          · by_cases hname : pyStr f = name
            · rw [← hname, alistGet_set_self] at hr
              injection hr with hte
              subst hte
              exact Or.inl ⟨List.mem_cons_self _ _, fmt, f, hfmt, hpq, hfile, hname⟩
            · rw [alistGet_set_ne _ _ _ _ (fun ee => hname ee.symm)] at hr
              exact Or.inr hr
      · rw [if_neg hpq] at h
        rcases ih _ _ h name e hget with hl | hr
        · exact Or.inl ⟨List.mem_cons_of_mem _ hl.1, hl.2⟩
        · exact Or.inr hr

/-- C4: for a valid current-schema manifest the sync indexes the
parquet-format table entries by file name (soundly: everything in the
index is a parquet entry keyed by its file); when some expected dataset is
absent from the index it raises MissingDatasetInManifest carrying the
missing names in sorted order with the state untouched (nothing
downloaded); on success exactly the expected files were requested in
sorted name order; and per file, after a successful download, a digest
differing from str(entry sha256) raises ChecksumMismatch, and with a
matching digest a byte size differing from int(entry size_bytes) raises
SizeMismatch, otherwise the file verifies. -/
theorem C4_sync_current (w : World) (base_url : String) (kvs : List (String × JVal))
    (tables : List JVal) (entries : List (String × JVal)) (st : St)
    (hv : _verify_manifest (.obj kvs) = .ok ())
    (ht : alistGet kvs "tables" = some (.arr tables))
    (hb : buildParquetEntries [] tables = .ok entries) :
    ((sortStrings EXPECTED_DATASETS).filter
        (fun name => (alistGet entries name).isNone) ≠ [] →
      _sync_from_manifest w base_url (.obj kvs) st =
        (.error (.missingDatasetsInManifest ((sortStrings EXPECTED_DATASETS).filter
          (fun name => (alistGet entries name).isNone))), st) ∧
      StrSorted ((sortStrings EXPECTED_DATASETS).filter
        (fun name => (alistGet entries name).isNone))) ∧
    (∀ st1, _sync_from_manifest w base_url (.obj kvs) st = (.ok (), st1) →
      st1.netLog = st.netLog ++ (sortStrings EXPECTED_DATASETS).map
        (fun n => base_url ++ "/" ++ n)) ∧
    (∀ name e, alistGet entries name = some e →
      e ∈ tables ∧ ∃ fmt f, jGet e "format" = .ok fmt ∧ pyStr fmt = "parquet" ∧
        jGet e "file" = .ok f ∧ pyStr f = name) ∧
    (∀ filename expected st0 c hv2,
      w.net (base_url ++ "/" ++ filename) = .ok c →
      jGet expected "sha256" = .ok hv2 →
      (w.sha256 c ≠ pyStr hv2 →
        (_download_and_verify_file w base_url filename expected st0).1 =
          .error (.checksumMismatch filename)) ∧
      (∀ sv n, w.sha256 c = pyStr hv2 → jGet expected "size_bytes" = .ok sv →
        pyInt sv = .ok n →
        (((w.fsize c : Int) ≠ n →
          (_download_and_verify_file w base_url filename expected st0).1 =
            .error (.sizeMismatch filename)) ∧
         ((w.fsize c : Int) = n →
          (_download_and_verify_file w base_url filename expected st0).1 =
            .ok ())))) := by
  have hjt : jGet (JVal.obj kvs) "tables" = .ok (.arr tables) := by
    simp [jGet, ht]
  refine ⟨?_, ?_, ?_, ?_⟩
  · intro hne
    constructor
    · unfold _sync_from_manifest
      rw [hv]
      dsimp only
      rw [hjt]
      dsimp only
      rw [hb]
      dsimp only
      rw [if_pos hne]
    · exact List.Pairwise.filter _ (by decide)
  · intro st1 h
    unfold _sync_from_manifest at h
    rw [hv] at h
    dsimp only at h
    rw [hjt] at h
    dsimp only at h
    rw [hb] at h
    dsimp only at h
    by_cases hne : (sortStrings EXPECTED_DATASETS).filter
        (fun name => (alistGet entries name).isNone) ≠ []
    · rw [if_pos hne] at h
      exact absurd h (by simp)
    · rw [if_neg hne] at h
      exact downloadExpected_ok_netLog w base_url entries _ st st1 h
  · intro name e hget
    rcases buildParquetEntries_sound tables [] entries hb name e hget with hl | hr
    · exact hl
    · exact absurd hr (by simp [alistGet])
  · intro filename expected st0 c hv2 hnet hsha
    unfold _download_and_verify_file _download_file
    dsimp only
    rw [hnet]
    dsimp only
    rw [readFile_writeFile_self]
    dsimp only
    rw [hsha]
    dsimp only
    constructor
    · intro hne
      rw [if_pos hne]
    · intro sv n heq hsv hint
      rw [if_neg (by simp [heq])]
      rw [hsv]
      dsimp only
      rw [hint]
      dsimp only
      constructor
      · intro hne2
        rw [if_pos hne2]
      · intro heq2
        rw [if_neg (by simp [heq2])]

/-- The parquet index the demo manifest produces. -/
def demoEntries : List (String × JVal) :=
  (sortStrings EXPECTED_DATASETS).map (fun n => (n, entryFor n))

/-- C4 witness: the demo sync succeeds and requests exactly the six
expected files in sorted order. -/
theorem C4_sync_current_witness :
    ((_sync_from_manifest demoWorld demoBase demoManifest emptySt).2).netLog =
      (sortStrings EXPECTED_DATASETS).map (fun n => demoBase ++ "/" ++ n) := by
  have happ := (C4_sync_current demoWorld demoBase demoKvs demoTables demoEntries
      emptySt rfl rfl rfl).2.1
  have h := happ ((_sync_from_manifest demoWorld demoBase demoManifest emptySt).2)
    (by rfl)
  simpa using h

/-! Claim C5: the legacy sync. -/

/-- An existing file can be read. -/
theorem readFile_of_fileExists (st : St) (n : String) (h : fileExists st n = true) :
    ∃ c, readFile st n = some c := by
  unfold fileExists at h
  rcases (Bool.and_eq_true ..).mp h with ⟨hp, hs⟩
  unfold readFile
  rw [if_pos hp]
  exact Option.isSome_iff_exists.mp hs

/-- The post-extraction verification loop never mutates the state. -/
theorem checkExtractedFiles_state (w : World) :
    ∀ (entries : List (String × JVal)) (st : St),
    (checkExtractedFiles w entries st).2 = st := by
  intro entries
  induction entries with
  | nil => intro st; rfl
  | cons kv rest ih =>
    intro st
    unfold checkExtractedFiles
    repeat' split
    all_goals first | rfl | exact ih st

/-- Success of the verification loop is exactly: every listed file exists
and its digest matches its entry's sha256.  No size condition appears. -/
theorem checkExtractedFiles_ok_iff (w : World) :
    ∀ (entries : List (String × JVal)) (st : St),
    (checkExtractedFiles w entries st).1 = .ok () ↔
      ∀ kv ∈ entries, fileExists st kv.1 = true ∧
        ∃ hv2 c2, jGet kv.2 "sha256" = .ok hv2 ∧ readFile st kv.1 = some c2 ∧
          w.sha256 c2 = pyStr hv2 := by
  intro entries
  induction entries with
  | nil => intro st; simp [checkExtractedFiles]
  | cons kv rest ih =>
    intro st
    unfold checkExtractedFiles
    by_cases hex : fileExists st kv.1 = true
    · rw [if_neg (by simp [hex])]
      obtain ⟨c2, hc2⟩ := readFile_of_fileExists st kv.1 hex
      rw [hc2]
      dsimp only
      cases hsha : jGet kv.2 "sha256" with
      | error e2 =>
        dsimp only
        constructor
        · intro h
          exact absurd h (by simp)
        · intro h
          obtain ⟨-, hv2, c3, hsh, -, -⟩ := h kv (List.mem_cons_self _ _)
          rw [hsha] at hsh
          exact absurd hsh (by simp)
      | ok hv2 =>
        dsimp only
        by_cases hmatch : w.sha256 c2 = pyStr hv2
        · rw [if_neg (by simp [hmatch])]
          rw [ih st]
          constructor
          · intro h kv2 hm2
            rcases List.mem_cons.mp hm2 with he | hm3
            · subst he
              exact ⟨hex, hv2, c2, hsha, hc2, hmatch⟩
            · exact h kv2 hm3
          · intro h kv2 hm2
            exact h kv2 (List.mem_cons_of_mem _ hm2)
        · rw [if_pos hmatch]
          constructor
          · intro h
            exact absurd h (by simp)
          · intro h
            obtain ⟨-, hv3, c3, hsh, hrd, hmt⟩ := h kv (List.mem_cons_self _ _)
            rw [hsha] at hsh
            injection hsh with hsh
            subst hsh
            rw [hc2] at hrd
            injection hrd with hrd
            subst hrd
            exact (hmatch hmt).elim
    · rw [if_pos (by simp [hex])]
      constructor
      · intro h
        exact absurd h (by simp)
      · intro h
        exact absurd (h kv (List.mem_cons_self _ _)).1 hex

/-- Dropping the size_bytes field of a file-info object: used to state
that the legacy loop never consults it. -/
def eraseSizeBytes : JVal → JVal
  | .obj kvs => .obj (kvs.filter (fun kv => kv.1 != "size_bytes"))
  | v => v

theorem alistGet_filter_other {α : Type} (kvs : List (String × α)) (d k : String)
    (h : k ≠ d) :
    alistGet (kvs.filter (fun kv => kv.1 != d)) k = alistGet kvs k := by
  induction kvs with
  | nil => rfl
  | cons kv rest ih =>
    by_cases hd : kv.1 = d
    · rw [List.filter_cons_of_neg (by simp [hd])]
      rw [ih]
      cases hr : alistGet rest k <;> simp [alistGet, hr, hd, Ne.symm h]
    · rw [List.filter_cons_of_pos (by simp [hd])]
      have hstep : alistGet (kv :: rest.filter (fun kv => kv.1 != d)) k =
          match alistGet (rest.filter (fun kv => kv.1 != d)) k with
          | some v => some v
          | none => if kv.1 = k then some kv.2 else none := rfl
      rw [hstep, ih]
      rfl

theorem jGet_eraseSizeBytes (info : JVal) :
    jGet (eraseSizeBytes info) "sha256" = jGet info "sha256" := by
  cases info <;> simp [eraseSizeBytes, jGet]
  case obj kvs =>
    rw [alistGet_filter_other kvs "size_bytes" "sha256" (by decide)]

/-- The legacy verification loop is invariant under deleting every
size_bytes field: byte sizes are never checked in the legacy path. -/
theorem checkExtractedFiles_ignores_size (w : World) :
    ∀ (entries : List (String × JVal)) (st : St),
    checkExtractedFiles w (entries.map (fun kv => (kv.1, eraseSizeBytes kv.2))) st =
      checkExtractedFiles w entries st := by
  intro entries
  induction entries with
  | nil => intro st; rfl
  | cons kv rest ih =>
    intro st
    simp only [List.map_cons]
    unfold checkExtractedFiles
    rw [jGet_eraseSizeBytes, ih st]

/-- C5: for a valid legacy manifest the sync downloads the named archive;
a digest differing from archive_sha256 raises ArchiveChecksumMismatch with
nothing extracted (the directory holds only the downloaded archive beyond
what it held); a matching digest extracts every archive member and runs
the per-file loop, which never mutates the state, fails on a missing
extracted file with MissingExtractedFile and on a digest mismatch with
ChecksumMismatch, succeeds exactly when every listed file exists with a
matching digest, and never consults size_bytes. -/
theorem C5_sync_legacy (w : World) (base_url : String) (kvs : List (String × JVal))
    (av shaV : JVal) (fileEntries : List (String × JVal)) (st : St)
    (hv : _verify_legacy_manifest (.obj kvs) = .ok ())
    (ha : alistGet kvs "archive" = some av)
    (hs : alistGet kvs "archive_sha256" = some shaV)
    (hf : alistGet kvs "files" = some (.obj fileEntries)) :
    (∀ c, w.net (base_url ++ "/" ++ pyStr av) = .ok c →
      strEqJVal (w.sha256 c) shaV = false →
      _sync_from_legacy_manifest w base_url (.obj kvs) st =
        (.error .archiveChecksumMismatch,
         writeFile
           { dir := (mkdirP st).dir,
             netLog := st.netLog ++ [base_url ++ "/" ++ pyStr av] }
           (pyStr av) c)) ∧
    (∀ c members, w.net (base_url ++ "/" ++ pyStr av) = .ok c →
      strEqJVal (w.sha256 c) shaV = true → unzipContent c = .ok members →
      _sync_from_legacy_manifest w base_url (.obj kvs) st =
        checkExtractedFiles w fileEntries (extractAll members
          (writeFile
            { dir := (mkdirP st).dir,
              netLog := st.netLog ++ [base_url ++ "/" ++ pyStr av] }
            (pyStr av) c))) ∧
    (∀ entries2 st2, (checkExtractedFiles w entries2 st2).2 = st2) ∧
    (∀ n info rest st2, fileExists st2 n = false →
      checkExtractedFiles w ((n, info) :: rest) st2 =
        (.error (.missingExtractedFile n), st2)) ∧
    (∀ n info rest st2 hv2 c2, readFile st2 n = some c2 →
      fileExists st2 n = true → jGet info "sha256" = .ok hv2 →
      w.sha256 c2 ≠ pyStr hv2 →
      checkExtractedFiles w ((n, info) :: rest) st2 =
        (.error (.checksumMismatch n), st2)) ∧
    (∀ entries2 st2, (checkExtractedFiles w entries2 st2).1 = .ok () ↔
      ∀ kv ∈ entries2, fileExists st2 kv.1 = true ∧
        ∃ hv2 c2, jGet kv.2 "sha256" = .ok hv2 ∧ readFile st2 kv.1 = some c2 ∧
          w.sha256 c2 = pyStr hv2) ∧
    (∀ entries2 st2,
      checkExtractedFiles w (entries2.map (fun kv => (kv.1, eraseSizeBytes kv.2))) st2 =
        checkExtractedFiles w entries2 st2) := by
  have hja : jGet (JVal.obj kvs) "archive" = .ok av := by simp [jGet, ha]
  have hjs : jGet (JVal.obj kvs) "archive_sha256" = .ok shaV := by simp [jGet, hs]
  have hjf : jGet (JVal.obj kvs) "files" = .ok (.obj fileEntries) := by simp [jGet, hf]
  refine ⟨?_, ?_, checkExtractedFiles_state w, ?_, ?_,
    checkExtractedFiles_ok_iff w, checkExtractedFiles_ignores_size w⟩
  · intro c hnet hmis
    unfold _sync_from_legacy_manifest _download_file
    rw [hv]
    dsimp only
    rw [hja]
    dsimp only
    rw [hnet]
    dsimp only
    rw [readFile_writeFile_self]
    dsimp only
    rw [hjs]
    dsimp only
    rw [if_pos (by simp [hmis])]
    simp [netLog_mkdirP]
  · intro c members hnet hmat hz
    unfold _sync_from_legacy_manifest _download_file
    rw [hv]
    dsimp only
    rw [hja]
    dsimp only
    rw [hnet]
    dsimp only
    rw [readFile_writeFile_self]
    dsimp only
    rw [hjs]
    dsimp only
    rw [if_neg (by simp [hmat])]
    rw [hz]
    dsimp only
    rw [hjf]
    dsimp only
    simp [netLog_mkdirP]
  · intro n info rest st2 hex
    unfold checkExtractedFiles
    rw [if_pos (by simp [hex])]
  · intro n info rest st2 hv2 c2 hrd hex hsha hne
    unfold checkExtractedFiles
    rw [if_neg (by simp [hex])]
    dsimp only
    rw [hrd]
    dsimp only
    rw [hsha]
    dsimp only
    rw [if_pos hne]

/-- A legacy release whose archive digest is wrong. -/
def c5kvs : List (String × JVal) :=
  [("archive", .str "a.zip"), ("archive_sha256", .str "H"),
   ("files", .obj [("bullet.parquet",
     .obj [("sha256", .str "h1"), ("size_bytes", .num 1)])])]

/-- A network serving that archive with content hashing to "H2" ≠ "H". -/
def c5world : World :=
  { net := fun url => if url = "B/a.zip" then .ok (.bytes [1]) else .error .transport,
    sha256 := fun _ => "H2", fsize := fun _ => 1 }

/-- C5 witness: the theorem applied to the wrong-digest legacy release. -/
theorem C5_sync_legacy_witness :
    (_sync_from_legacy_manifest c5world "B" (.obj c5kvs) emptySt).1 =
      .error .archiveChecksumMismatch := by
  have h := (C5_sync_legacy c5world "B" c5kvs (.str "a.zip") (.str "H")
      [("bullet.parquet", .obj [("sha256", .str "h1"), ("size_bytes", .num 1)])]
      emptySt rfl rfl rfl rfl).1 (.bytes [1]) rfl rfl
  rw [h]

/-! Claim C9: contents of the cache directory after success. -/

theorem mkdirP_of_present (st : St) (h : st.dir.present = true) : mkdirP st = st := by
  unfold mkdirP
  rw [if_pos h]

/-- A per-file verification that succeeds downloaded its file: the network
returned a body and the state is exactly the post-write state. -/
theorem download_and_verify_ok_state (w : World) (b n : String) (e : JVal)
    (st st2 : St)
    (h : _download_and_verify_file w b n e st = (.ok (), st2)) :
    ∃ c, w.net (b ++ "/" ++ n) = .ok c ∧
      st2 = writeFile
        { dir := (mkdirP st).dir, netLog := st.netLog ++ [b ++ "/" ++ n] } n c := by
  unfold _download_and_verify_file _download_file at h
  dsimp only at h
  cases hnet : w.net (b ++ "/" ++ n) with
  | error e2 =>
    rw [hnet] at h
    exact absurd h (by simp)
  | ok c =>
    rw [hnet] at h
    dsimp only at h
    rw [readFile_writeFile_self] at h
    dsimp only at h
    refine ⟨c, rfl, ?_⟩
    repeat' split at h
    all_goals simp_all [netLog_mkdirP]

/-- Key evolution of a successful download loop: each name is appended to
the key list when fresh, in processing order. -/
theorem downloadExpected_ok_files (w : World) (b : String)
    (entries : List (String × JVal)) :
    ∀ (names : List String) (st st1 : St),
    downloadExpected w b entries names st = (.ok (), st1) →
    st.dir.present = true →
    st1.dir.present = true ∧
    st1.dir.files.map Prod.fst =
      names.foldl (fun ks n => if n ∈ ks then ks else ks ++ [n])
        (st.dir.files.map Prod.fst) := by
  intro names
  induction names with
  | nil =>
    intro st st1 h hp
    simp only [downloadExpected, Prod.mk.injEq] at h
    rw [← h.2]
    exact ⟨hp, by simp⟩
  | cons name rest ih =>
    intro st st1 h hp
    unfold downloadExpected at h
    cases hget : alistGet entries name with
    | none => rw [hget] at h; exact absurd h (by simp)
    | some entry =>
      rw [hget] at h
      dsimp only at h
      rcases hdl : _download_and_verify_file w b name entry st with ⟨r, st2⟩
      rw [hdl] at h
      cases r with
      | error e => exact absurd h (by simp)
      | ok u =>
        obtain ⟨c, hnet, hst2⟩ := download_and_verify_ok_state w b name entry st st2 hdl
        have hdir2 : st2.dir = ⟨true, alistSet st.dir.files name c⟩ := by
          rw [hst2, mkdirP_of_present st hp]
          unfold writeFile
          simp [hp]
        have hp2 : st2.dir.present = true := by rw [hdir2]
        obtain ⟨hp1, hkeys⟩ := ih st2 st1 h hp2
        refine ⟨hp1, ?_⟩
        rw [hkeys, hdir2]
        simp only [List.foldl_cons]
        rw [keys_alistSet]

/-- Key evolution of a successful current-schema sync from an existing
directory. -/
theorem sync_from_manifest_ok_files (w : World) (b : String) (manifest : JVal)
    (st st1 : St) (h : _sync_from_manifest w b manifest st = (.ok (), st1))
    (hp : st.dir.present = true) :
    st1.dir.present = true ∧
    st1.dir.files.map Prod.fst =
      (sortStrings EXPECTED_DATASETS).foldl
        (fun ks n => if n ∈ ks then ks else ks ++ [n])
        (st.dir.files.map Prod.fst) := by
  unfold _sync_from_manifest at h
  dsimp only at h
  repeat' split at h
  all_goals first
    | exact absurd h (by simp)
    | exact downloadExpected_ok_files w b _ _ st st1 h hp

/-- C9 counterexample: (a) the demo run succeeds and its cache directory
also contains the downloaded manifest file, which is neither a dataset
file nor the Completion Marker; (b) a call that finds the marker in an
otherwise empty directory succeeds through the fast path although no
dataset file is present — so after a successful call the directory need
not contain exactly the six dataset files plus the marker. -/
theorem C9_counterexample :
    ((ensure_data demoWorld demoEnv (some "v1") false emptySt).1 = .ok "/c/data/v1" ∧
     fileExists (ensure_data demoWorld demoEnv (some "v1") false emptySt).2
       MANIFEST_NAME = true ∧
     MANIFEST_NAME ∉ ".complete" :: EXPECTED_DATASETS) ∧
    ((ensure_data nullWorld demoEnv (some "v1") false
        ⟨⟨true, [(".complete", Content.text "ok\n")]⟩, []⟩).1 = .ok "/c/data/v1" ∧
     fileExists (ensure_data nullWorld demoEnv (some "v1") false
        ⟨⟨true, [(".complete", Content.text "ok\n")]⟩, []⟩).2
       "bullet.parquet" = false) :=
  ⟨⟨rfl, rfl, by decide⟩, ⟨rfl, rfl⟩⟩

/-! Positive file-existence is preserved by every pipeline stage: the code
only ever creates files, never removes one (except the force-rmtree before
any download). -/

theorem readFile_some_fileExists (st : St) (n : String) (c : Content)
    (h : readFile st n = some c) : fileExists st n = true := by
  unfold readFile at h
  unfold fileExists
  by_cases hp : st.dir.present = true
  · rw [if_pos hp] at h
    rw [hp]
    simp [h]
  · rw [if_neg hp] at h
    exact absurd h (by simp)

theorem fileExists_writeFile_mono (st : St) (n m : String) (c : Content)
    (h : fileExists st m = true) : fileExists (writeFile st n c) m = true := by
  by_cases he : m = n
  · subst he
    exact fileExists_writeFile_self _ _ _
  · rw [fileExists_writeFile_ne _ _ _ _ he]
    exact h

theorem fileExists_download_file_mono (w : World) (u n : String) (st : St)
    (m : String) (h : fileExists st m = true) :
    fileExists ((_download_file w u n st).2) m = true := by
  unfold _download_file
  dsimp only
  have hmk : fileExists (mkdirP st) m = true := by
    rw [fileExists_mkdirP]
    exact h
  cases w.net u with
  | ok body =>
    dsimp only
    apply fileExists_writeFile_mono
    exact hmk
  | error e =>
    dsimp only
    exact hmk

theorem fileExists_dl_verify_mono (w : World) (b n : String) (e : JVal) (st : St)
    (m : String) (h : fileExists st m = true) :
    fileExists ((_download_and_verify_file w b n e st).2) m = true := by
  unfold _download_and_verify_file
  rcases hdf : _download_file w (b ++ "/" ++ n) n st with ⟨r, st1⟩
  have h1 : fileExists st1 m = true := by
    have hh := fileExists_download_file_mono w (b ++ "/" ++ n) n st m h
    rw [hdf] at hh
    exact hh
  cases r with
  | error e2 => exact h1
  | ok u =>
    dsimp only
    repeat' split
    all_goals exact h1

theorem fileExists_downloadExpected_mono (w : World) (b : String)
    (entries : List (String × JVal)) :
    ∀ (names : List String) (st : St) (m : String), fileExists st m = true →
    fileExists ((downloadExpected w b entries names st).2) m = true := by
  intro names
  induction names with
  | nil => intro st m h; exact h
  | cons name rest ih =>
    intro st m h
    unfold downloadExpected
    cases hget : alistGet entries name with
    | none => exact h
    | some entry =>
      dsimp only
      rcases hdl : _download_and_verify_file w b name entry st with ⟨r, st2⟩
      have h2 : fileExists st2 m = true := by
        have hh := fileExists_dl_verify_mono w b name entry st m h
        rw [hdl] at hh
        exact hh
      cases r with
      | error e => exact h2
      | ok u =>
        dsimp only
        exact ih st2 m h2

theorem fileExists_sync_manifest_mono (w : World) (b : String) (manifest : JVal)
    (st : St) (m : String) (h : fileExists st m = true) :
    fileExists ((_sync_from_manifest w b manifest st).2) m = true := by
  unfold _sync_from_manifest
  dsimp only
  repeat' split
  all_goals first
    | exact h
    | exact fileExists_downloadExpected_mono w b _ _ st m h

theorem fileExists_extractAll_mono (members : List (String × Content)) :
    ∀ (st : St) (m : String), fileExists st m = true →
    fileExists (extractAll members st) m = true := by
  induction members with
  | nil => intro st m h; exact h
  | cons mem rest ih =>
    intro st m h
    have hstep : extractAll (mem :: rest) st =
        extractAll rest (writeFile st mem.1 mem.2) := by
      unfold extractAll
      simp [List.foldl_cons]
    rw [hstep]
    exact ih _ m (fileExists_writeFile_mono _ _ _ _ h)

theorem fileExists_sync_legacy_mono (w : World) (b : String) (manifest : JVal)
    (st : St) (m : String) (h : fileExists st m = true) :
    fileExists ((_sync_from_legacy_manifest w b manifest st).2) m = true := by
  unfold _sync_from_legacy_manifest
  cases _verify_legacy_manifest manifest with
  | error e => exact h
  | ok u =>
    dsimp only
    cases jGet manifest "archive" with
    | error e => exact h
    | ok av =>
      dsimp only
      rcases hdf : _download_file w (b ++ "/" ++ pyStr av) (pyStr av) st with ⟨r, st1⟩
      have h1 : fileExists st1 m = true := by
        have hh := fileExists_download_file_mono w (b ++ "/" ++ pyStr av) (pyStr av)
          st m h
        rw [hdf] at hh
        exact hh
      cases r with
      | error e => exact h1
      | ok u2 =>
        dsimp only
        cases readFile st1 (pyStr av) with
        | none => exact h1
        | some ac =>
          dsimp only
          cases jGet manifest "archive_sha256" with
          | error e => exact h1
          | ok shaV =>
            dsimp only
            split
            · exact h1
            · cases unzipContent ac with
              | error e => exact h1
              | ok members =>
                dsimp only
                have h2 := fileExists_extractAll_mono members st1 m h1
                cases jGet manifest "files" with
                | error e => exact h2
                | ok fv =>
                  dsimp only
                  cases fv with
                  | obj fileEntries =>
                    rw [checkExtractedFiles_state w fileEntries
                      (extractAll members st1)]
                    exact h2
                  | str s => exact h2
                  | num n2 => exact h2
                  | bool b2 => exact h2
                  | null => exact h2
                  | arr xs => exact h2

/-- A successful manifest fetch names either the current or the legacy
manifest file, with the matching legacy flag. -/
theorem download_manifest_ok_name (w : World) (env : Env) (v : String)
    (st st3 : St) (mf : String × Bool)
    (h : _download_manifest w env v st = (.ok mf, st3)) :
    mf = (MANIFEST_NAME, false) ∨ mf = (LEGACY_MANIFEST_NAME, true) := by
  unfold _download_manifest at h
  dsimp only at h
  rcases hd1 : _download_file w (_resolve_base_url env v ++ "/" ++ MANIFEST_NAME)
      MANIFEST_NAME st with ⟨r1, st1⟩
  rw [hd1] at h
  cases r1 with
  | ok u =>
    simp only [Prod.mk.injEq, Except.ok.injEq] at h
    exact Or.inl h.1.symm
  | error e =>
    dsimp only at h
    split at h
    · split at h
      · exact absurd h (by simp)
      · rcases hd2 : _download_file w
            (_resolve_base_url env v ++ "/" ++ LEGACY_MANIFEST_NAME)
            LEGACY_MANIFEST_NAME st1 with ⟨r2, st2⟩
        rw [hd2] at h
        cases r2 with
        | ok u2 =>
          simp only [Prod.mk.injEq, Except.ok.injEq] at h
          exact Or.inr h.1.symm
        | error e2 => exact absurd h (by simp)
    · exact absurd h (by simp)

/-- C9 (amended): after a successful ensure_data call that performed a
sync (marker initially absent, or force set) the cache directory contains
the six dataset files, the Completion Marker, and additionally the
downloaded manifest file — under its current- or legacy-schema name; when
force was set and the current-schema manifest was served, the directory
contains exactly those eight files (manifest file, six datasets, marker)
and nothing else, in write order; a fast-path success (marker already
present, no force) returns with the directory unchanged and so guarantees
nothing beyond the marker itself. -/
theorem C9_cache_contents (w : World) (env : Env) (version : Option String)
    (force : Bool) (st : St) (p : String) (st1 : St)
    (h : ensure_data w env version force st = (.ok p, st1)) :
    ((fileExists st ".complete" = false ∨ force = true) →
      (∀ n ∈ EXPECTED_DATASETS, fileExists st1 n = true) ∧
      fileExists st1 ".complete" = true ∧
      (fileExists st1 MANIFEST_NAME = true ∨
       fileExists st1 LEGACY_MANIFEST_NAME = true)) ∧
    (force = true → ∀ mc,
      w.net (_resolve_base_url env (_resolve_data_version env version) ++
        "/" ++ MANIFEST_NAME) = .ok mc →
      st1.dir.files.map Prod.fst =
        MANIFEST_NAME :: (sortStrings EXPECTED_DATASETS ++ [".complete"])) ∧
    (fileExists st ".complete" = true → force = false → st1 = st) := by
  refine ⟨?_, ?_, ?_⟩
  · -- every sync-performing success: six datasets, marker, manifest file
    intro hslow
    unfold ensure_data at h
    have hfast : ¬ (fileExists st ".complete" && ! force) = true := by
      rcases hslow with h1 | h1 <;> simp [h1]
    rw [if_neg hfast] at h
    dsimp only at h
    rcases hdm : _download_manifest w env (_resolve_data_version env version)
        (mkdirP (if (force && st.dir.present) = true then rmtree st else st))
      with ⟨r3, st3⟩
    rw [hdm] at h
    cases r3 with
    | error e3 => exact absurd h (by simp)
    | ok mf =>
      dsimp only at h
      cases hrf : readFile st3 mf.1 with
      | none =>
        rw [hrf] at h
        exact absurd h (by simp)
      | some mc =>
        rw [hrf] at h
        dsimp only at h
        cases hpj : parseJson mc with
        | error e4 =>
          rw [hpj] at h
          exact absurd h (by simp)
        | ok manifest =>
          rw [hpj] at h
          dsimp only at h
          rcases hsy : (if mf.2 = true
              then _sync_from_legacy_manifest w
                (_resolve_base_url env (_resolve_data_version env version))
                manifest st3
              else _sync_from_manifest w
                (_resolve_base_url env (_resolve_data_version env version))
                manifest st3)
            with ⟨r4, st4⟩
          rw [hsy] at h
          cases r4 with
          | error e5 => exact absurd h (by simp)
          | ok u4 =>
            dsimp only at h
            by_cases hmiss : (sortStrings EXPECTED_DATASETS).filter
                (fun name => ! fileExists st4 name) ≠ []
            · rw [if_pos hmiss] at h
              exact absurd h (by simp)
            · rw [if_neg hmiss] at h
              simp only [Prod.mk.injEq, Except.ok.injEq] at h
              have hst1 : st1 = writeFile st4 ".complete" markerContent := h.2.symm
              have hnil : (sortStrings EXPECTED_DATASETS).filter
                  (fun name => ! fileExists st4 name) = [] := by
                simpa using hmiss
              have hall4 : ∀ n ∈ sortStrings EXPECTED_DATASETS,
                  fileExists st4 n = true := by
                intro n hn
                by_cases hfe : fileExists st4 n = true
                · exact hfe
                · exfalso
                  have hmem : n ∈ (sortStrings EXPECTED_DATASETS).filter
                      (fun name => ! fileExists st4 name) := by
                    rw [List.mem_filter]
                    refine ⟨hn, ?_⟩
                    have hfe2 : fileExists st4 n = false := by simpa using hfe
                    simp [hfe2]
                  rw [hnil] at hmem
                  exact absurd hmem (by simp)
              refine ⟨?_, ?_, ?_⟩
              · intro n hn
                rw [hst1]
                exact fileExists_writeFile_mono _ _ _ _
                  (hall4 n ((mem_sortStrings n _).mpr hn))
              · rw [hst1]
                exact fileExists_writeFile_self _ _ _
              · have hex3 : fileExists st3 mf.1 = true :=
                  readFile_some_fileExists st3 mf.1 mc hrf
                have hex4 : fileExists st4 mf.1 = true := by
                  by_cases hmf2 : mf.2 = true
                  · rw [if_pos hmf2] at hsy
                    have hh := fileExists_sync_legacy_mono w
                      (_resolve_base_url env (_resolve_data_version env version))
                      manifest st3 mf.1 hex3
                    rw [hsy] at hh
                    exact hh
                  · rw [if_neg hmf2] at hsy
                    have hh := fileExists_sync_manifest_mono w
                      (_resolve_base_url env (_resolve_data_version env version))
                      manifest st3 mf.1 hex3
                    rw [hsy] at hh
                    exact hh
                have hex1 : fileExists st1 mf.1 = true := by
                  rw [hst1]
                  exact fileExists_writeFile_mono _ _ _ _ hex4
                rcases download_manifest_ok_name w env _ _ st3 mf hdm with hn | hn
                · rw [hn] at hex1
                  exact Or.inl hex1
                · rw [hn] at hex1
                  exact Or.inr hex1
  · -- force = true, current schema served: exactly eight files
    intro hf mc hnet
    subst hf
    unfold ensure_data at h
    rw [if_neg (by simp)] at h
    dsimp only at h
    rw [show (if (true && st.dir.present) = true then rmtree st else st) =
        (if st.dir.present = true then rmtree st else st) from by simp] at h
    rw [show mkdirP (if st.dir.present = true then rmtree st else st) =
        (⟨⟨true, []⟩, st.netLog⟩ : St) from by
      by_cases hp : st.dir.present <;> simp [hp, rmtree, mkdirP]] at h
    rw [show _download_manifest w env (_resolve_data_version env version)
          (⟨⟨true, []⟩, st.netLog⟩ : St) =
        (.ok (MANIFEST_NAME, false),
         (⟨⟨true, [(MANIFEST_NAME, mc)]⟩,
           st.netLog ++ [_resolve_base_url env (_resolve_data_version env version) ++
             "/" ++ MANIFEST_NAME]⟩ : St)) from by
      unfold _download_manifest _download_file
      dsimp only
      rw [hnet]
      dsimp only
      simp [mkdirP, writeFile, alistSet]] at h
    dsimp only at h
    rw [show readFile (⟨⟨true, [(MANIFEST_NAME, mc)]⟩,
        st.netLog ++ [_resolve_base_url env (_resolve_data_version env version) ++
          "/" ++ MANIFEST_NAME]⟩ : St) MANIFEST_NAME = some mc from by
      simp [readFile, alistGet]] at h
    dsimp only at h
    cases hpj : parseJson mc with
    | error e => rw [hpj] at h; exact absurd h (by simp)
    | ok manifest =>
      rw [hpj] at h
      dsimp only at h
      rw [if_neg (show ¬ (false = true) from by simp)] at h
      rcases hsync : _sync_from_manifest w
          (_resolve_base_url env (_resolve_data_version env version)) manifest
          (⟨⟨true, [(MANIFEST_NAME, mc)]⟩,
            st.netLog ++ [_resolve_base_url env (_resolve_data_version env version) ++
              "/" ++ MANIFEST_NAME]⟩ : St) with ⟨r, st4⟩
      rw [hsync] at h
      cases r with
      | error e => exact absurd h (by simp)
      | ok u =>
        dsimp only at h
        obtain ⟨hp4, hkeys⟩ := sync_from_manifest_ok_files w _ manifest _ st4 hsync rfl
        by_cases hmiss : (sortStrings EXPECTED_DATASETS).filter
            (fun name => ! fileExists st4 name) ≠ []
        · rw [if_pos hmiss] at h
          exact absurd h (by simp)
        · rw [if_neg hmiss] at h
          simp only [Prod.mk.injEq, Except.ok.injEq] at h
          rw [← h.2]
          unfold writeFile
          rw [if_pos (?hbase : st4.dir.present = true)]
          case hbase => exact hp4
          dsimp only
          rw [keys_alistSet]
          rw [if_neg (?hfresh : ¬ ".complete" ∈ st4.dir.files.map Prod.fst)]
          case hfresh =>
            rw [hkeys]
            simp only [List.map_cons, List.map_nil]
            decide
          rw [hkeys]
          simp only [List.map_cons, List.map_nil]
          decide
  · -- fast path: state unchanged
    intro hmark hf
    subst hf
    unfold ensure_data at h
    rw [if_pos (by simp [hmark])] at h
    simp only [Prod.mk.injEq, Except.ok.injEq] at h
    exact h.2.symm

/-- C9 witness: the amended theorem applied to a forced demo run — the
exact eight-file contents and the presence of all six datasets. -/
theorem C9_cache_contents_witness :
    ((ensure_data demoWorld demoEnv (some "v1") true emptySt).2).dir.files.map
      Prod.fst = MANIFEST_NAME :: (sortStrings EXPECTED_DATASETS ++ [".complete"]) ∧
    (∀ n ∈ EXPECTED_DATASETS,
      fileExists (ensure_data demoWorld demoEnv (some "v1") true emptySt).2
        n = true) := by
  have happ := C9_cache_contents demoWorld demoEnv (some "v1") true emptySt
    "/c/data/v1" (ensure_data demoWorld demoEnv (some "v1") true emptySt).2 (by rfl)
  exact ⟨happ.2.1 rfl (.json demoManifest) rfl, (happ.1 (Or.inr rfl)).1⟩

/-! Claim C1: marker absence after errors.  The lemmas below track that no
pipeline stage writes a file named ".complete" — except that the legacy
path writes the archive under its manifest-chosen name and extracts
members under their own names, so those names must be assumed distinct
from the marker name. -/

theorem marker_download_file (w : World) (u n : String) (st : St)
    (h : n ≠ ".complete") :
    fileExists ((_download_file w u n st).2) ".complete" =
      fileExists st ".complete" := by
  unfold _download_file
  dsimp only
  cases w.net u with
  | ok body =>
    dsimp only
    rw [fileExists_writeFile_ne _ _ _ _ (Ne.symm h)]
    by_cases hp : st.dir.present <;> simp [fileExists, mkdirP, hp, alistGet]
  | error e =>
    dsimp only
    by_cases hp : st.dir.present <;> simp [fileExists, mkdirP, hp, alistGet]

/-- A successful plain download returned a network body and wrote exactly
it. -/
theorem download_file_ok_state (w : World) (u n : String) (st st1 : St)
    (h : _download_file w u n st = (.ok (), st1)) :
    ∃ c, w.net u = .ok c ∧
      st1 = writeFile { dir := (mkdirP st).dir, netLog := st.netLog ++ [u] } n c := by
  unfold _download_file at h
  dsimp only at h
  cases hnet : w.net u with
  | ok body =>
    rw [hnet] at h
    dsimp only at h
    simp only [Prod.mk.injEq] at h
    exact ⟨body, rfl, by rw [← h.2, netLog_mkdirP]⟩
  | error e =>
    rw [hnet] at h
    exact absurd h (by simp)

theorem marker_download_and_verify (w : World) (b n : String) (e : JVal) (st : St)
    (h : n ≠ ".complete") :
    fileExists ((_download_and_verify_file w b n e st).2) ".complete" =
      fileExists st ".complete" := by
  unfold _download_and_verify_file
  rcases hdf : _download_file w (b ++ "/" ++ n) n st with ⟨r, st1⟩
  have hpres : fileExists st1 ".complete" = fileExists st ".complete" := by
    have hh := marker_download_file w (b ++ "/" ++ n) n st h
    rw [hdf] at hh
    exact hh
  cases r with
  | error e2 => exact hpres
  | ok u =>
    dsimp only
    repeat' split
    all_goals exact hpres

theorem marker_downloadExpected (w : World) (b : String)
    (entries : List (String × JVal)) :
    ∀ (names : List String) (st : St), (∀ n ∈ names, n ≠ ".complete") →
    fileExists ((downloadExpected w b entries names st).2) ".complete" =
      fileExists st ".complete" := by
  intro names
  induction names with
  | nil => intro st h; rfl
  | cons name rest ih =>
    intro st h
    unfold downloadExpected
    cases hget : alistGet entries name with
    | none => rfl
    | some entry =>
      dsimp only
      rcases hdl : _download_and_verify_file w b name entry st with ⟨r, st2⟩
      have hpres : fileExists st2 ".complete" = fileExists st ".complete" := by
        have hh := marker_download_and_verify w b name entry st
          (h name (List.mem_cons_self _ _))
        rw [hdl] at hh
        exact hh
      cases r with
      | error e => exact hpres
      | ok u =>
        dsimp only
        rw [ih st2 (fun n hn => h n (List.mem_cons_of_mem _ hn))]
        exact hpres

theorem marker_sync_from_manifest (w : World) (b : String) (manifest : JVal)
    (st : St) :
    fileExists ((_sync_from_manifest w b manifest st).2) ".complete" =
      fileExists st ".complete" := by
  unfold _sync_from_manifest
  dsimp only
  repeat' split
  all_goals first
    | rfl
    | exact marker_downloadExpected w b _ _ st (by decide)

theorem marker_extractAll (members : List (String × Content)) :
    ∀ st : St, (∀ m ∈ members, m.1 ≠ ".complete") →
    fileExists (extractAll members st) ".complete" = fileExists st ".complete" := by
  induction members with
  | nil => intro st h; rfl
  | cons m rest ih =>
    intro st h
    have hstep : extractAll (m :: rest) st = extractAll rest (writeFile st m.1 m.2) := by
      unfold extractAll
      simp [List.foldl_cons]
    rw [hstep, ih _ (fun x hx => h x (List.mem_cons_of_mem _ hx))]
    exact fileExists_writeFile_ne _ _ _ _ (Ne.symm (h m (List.mem_cons_self _ _)))

/-- jGet succeeding means the value is an object holding that key. -/
theorem jGet_ok_inv (v : JVal) (k : String) (x : JVal) (h : jGet v k = .ok x) :
    ∃ kvs, v = JVal.obj kvs ∧ alistGet kvs k = some x := by
  cases v <;> simp [jGet] at h
  case obj kvs =>
    cases hg : alistGet kvs k with
    | none => rw [hg] at h; exact absurd h (by simp)
    | some y =>
      rw [hg] at h
      simp only [Except.ok.injEq] at h
      exact ⟨kvs, rfl, by rw [hg, h]⟩

theorem marker_sync_from_legacy (w : World) (b : String) (manifest : JVal) (st : St)
    (hA : ∀ av, jGet manifest "archive" = .ok av → pyStr av ≠ ".complete")
    (hM : ∀ av c members, jGet manifest "archive" = .ok av →
      w.net (b ++ "/" ++ pyStr av) = .ok c → unzipContent c = .ok members →
      ∀ m ∈ members, m.1 ≠ ".complete") :
    fileExists ((_sync_from_legacy_manifest w b manifest st).2) ".complete" =
      fileExists st ".complete" := by
  unfold _sync_from_legacy_manifest
  cases _verify_legacy_manifest manifest with
  | error e => rfl
  | ok u =>
    dsimp only
    cases hja : jGet manifest "archive" with
    | error e => rfl
    | ok av =>
      dsimp only
      rcases hdf : _download_file w (b ++ "/" ++ pyStr av) (pyStr av) st with ⟨r, st1⟩
      have hpres1 : fileExists st1 ".complete" = fileExists st ".complete" := by
        have hh := marker_download_file w (b ++ "/" ++ pyStr av) (pyStr av) st
          (hA av hja)
        rw [hdf] at hh
        exact hh
      cases r with
      | error e => exact hpres1
      | ok u2 =>
        obtain ⟨c, hnet, hst1⟩ :=
          download_file_ok_state w (b ++ "/" ++ pyStr av) (pyStr av) st st1 hdf
        dsimp only
        cases hrf : readFile st1 (pyStr av) with
        | none => exact hpres1
        | some ac =>
          have hac : ac = c := by
            rw [hst1, readFile_writeFile_self] at hrf
            injection hrf with hh
            exact hh.symm
          dsimp only
          cases jGet manifest "archive_sha256" with
          | error e => exact hpres1
          | ok shaV =>
            dsimp only
            by_cases hmis : strEqJVal (w.sha256 ac) shaV = true
            · rw [if_neg (by simp [hmis])]
              cases hz : unzipContent ac with
              | error e => exact hpres1
              | ok members =>
                dsimp only
                have hmm : ∀ m ∈ members, m.1 ≠ ".complete" := by
                  intro m hm
                  exact hM av c members hja hnet (by rw [← hac]; exact hz) m hm
                cases jGet manifest "files" with
                | error e =>
                  dsimp only
                  rw [marker_extractAll members st1 hmm]
                  exact hpres1
                | ok fv =>
                  dsimp only
                  cases fv with
                  | obj fileEntries =>
                    have hst := checkExtractedFiles_state w fileEntries
                      (extractAll members st1)
                    rw [hst, marker_extractAll members st1 hmm]
                    exact hpres1
                  | str s =>
                    dsimp only
                    rw [marker_extractAll members st1 hmm]
                    exact hpres1
                  | num n =>
                    dsimp only
                    rw [marker_extractAll members st1 hmm]
                    exact hpres1
                  | bool b2 =>
                    dsimp only
                    rw [marker_extractAll members st1 hmm]
                    exact hpres1
                  | null =>
                    dsimp only
                    rw [marker_extractAll members st1 hmm]
                    exact hpres1
                  | arr xs =>
                    dsimp only
                    rw [marker_extractAll members st1 hmm]
                    exact hpres1
            · rw [if_pos (by simp [hmis])]
              exact hpres1

theorem marker_download_manifest (w : World) (env : Env) (v : String) (st : St) :
    fileExists ((_download_manifest w env v st).2) ".complete" =
      fileExists st ".complete" := by
  unfold _download_manifest
  dsimp only
  rcases hd1 : _download_file w (_resolve_base_url env v ++ "/" ++ MANIFEST_NAME)
      MANIFEST_NAME st with ⟨r1, st1⟩
  have hp1 : fileExists st1 ".complete" = fileExists st ".complete" := by
    have hh := marker_download_file w (_resolve_base_url env v ++ "/" ++ MANIFEST_NAME)
      MANIFEST_NAME st (by decide)
    rw [hd1] at hh
    exact hh
  cases r1 with
  | ok u => exact hp1
  | error e =>
    dsimp only
    split
    · split
      · exact hp1
      · rcases hd2 : _download_file w
            (_resolve_base_url env v ++ "/" ++ LEGACY_MANIFEST_NAME)
            LEGACY_MANIFEST_NAME st1 with ⟨r2, st2⟩
        have hp2 : fileExists st2 ".complete" = fileExists st1 ".complete" := by
          have hh := marker_download_file w
            (_resolve_base_url env v ++ "/" ++ LEGACY_MANIFEST_NAME)
            LEGACY_MANIFEST_NAME st1 (by decide)
          rw [hd2] at hh
          exact hh
        cases r2 with
        | ok u2 => rw [hp2]; exact hp1
        | error e2 => rw [hp2]; exact hp1
    · exact hp1

/-- A successful manifest fetch leaves the manifest file holding a body
the network served. -/
theorem download_manifest_ok_readFile (w : World) (env : Env) (v : String)
    (st st3 : St) (mf : String × Bool)
    (h : _download_manifest w env v st = (.ok mf, st3)) :
    ∃ url c, w.net url = .ok c ∧ readFile st3 mf.1 = some c := by
  unfold _download_manifest at h
  dsimp only at h
  rcases hd1 : _download_file w (_resolve_base_url env v ++ "/" ++ MANIFEST_NAME)
      MANIFEST_NAME st with ⟨r1, st1⟩
  rw [hd1] at h
  cases r1 with
  | ok u =>
    dsimp only at h
    simp only [Prod.mk.injEq, Except.ok.injEq] at h
    obtain ⟨hmf, hst⟩ := h
    subst hst
    obtain ⟨c, hnet, hws⟩ := download_file_ok_state _ _ _ _ _ hd1
    refine ⟨_, c, hnet, ?_⟩
    rw [← hmf]
    dsimp only
    rw [hws, readFile_writeFile_self]
  | error e =>
    dsimp only at h
    split at h
    · split at h
      · exact absurd h (by simp)
      · rcases hd2 : _download_file w
            (_resolve_base_url env v ++ "/" ++ LEGACY_MANIFEST_NAME)
            LEGACY_MANIFEST_NAME st1 with ⟨r2, st2⟩
        rw [hd2] at h
        cases r2 with
        | ok u2 =>
          dsimp only at h
          simp only [Prod.mk.injEq, Except.ok.injEq] at h
          obtain ⟨hmf, hst⟩ := h
          subst hst
          obtain ⟨c, hnet, hws⟩ := download_file_ok_state _ _ _ _ _ hd2
          refine ⟨_, c, hnet, ?_⟩
          rw [← hmf]
          dsimp only
          rw [hws, readFile_writeFile_self]
        | error e2 => exact absurd h (by simp)
    · exact absurd h (by simp)

/-- No content the network serves would place a file named ".complete"
into the cache: no decoded legacy manifest names ".complete" as its
archive, and no served archive has a member of that name.  (Every
genuine release satisfies this; the source never checks it.) -/
def ServesNoMarkerFiles (w : World) : Prop :=
  ∀ url c, w.net url = .ok c →
    (∀ kvs av, parseJson c = .ok (.obj kvs) → alistGet kvs "archive" = some av →
      pyStr av ≠ ".complete") ∧
    (∀ members, unzipContent c = .ok members → ∀ m ∈ members, m.1 ≠ ".complete")

/-- C1 (amended): when every invocation of ensure_data raises an error
during manifest fetch, validation, synchronization or the final
expected-datasets check, the Completion Marker is absent afterward —
provided the network serves no legacy manifest naming ".complete" as its
archive and no archive holding a ".complete" member (the code itself does
not guard against such names, so the original unconditional claim fails);
the marker write itself happens only after the final check succeeds. -/
theorem C1_marker_absent_on_error (w : World) (env : Env) (version : Option String)
    (force : Bool) (st : St) (e : SyncError) (st1 : St)
    (hw : ServesNoMarkerFiles w)
    (h : ensure_data w env version force st = (.error e, st1)) :
    fileExists st1 ".complete" = false := by
  unfold ensure_data at h
  by_cases hfast : (fileExists st ".complete" && ! force) = true
  · rw [if_pos hfast] at h
    exact absurd h (by simp)
  · rw [if_neg hfast] at h
    dsimp only at h
    have hC : fileExists (mkdirP (if (force && st.dir.present) = true
        then rmtree st else st)) ".complete" = false := by
      by_cases hf : force = true
      · by_cases hp : st.dir.present = true
        · rw [if_pos (by simp [hf, hp])]
          simp [rmtree, mkdirP, fileExists, alistGet]
        · rw [if_neg (by simp [hp])]
          rw [fileExists_mkdirP]
          have hp2 : st.dir.present = false := by simpa using hp
          unfold fileExists
          rw [hp2]
          rfl
      · have hf2 : force = false := by simpa using hf
        rw [if_neg (by simp [hf2])]
        rw [fileExists_mkdirP]
        rw [hf2] at hfast
        simpa using hfast
    rcases hdm : _download_manifest w env (_resolve_data_version env version)
        (mkdirP (if (force && st.dir.present) = true then rmtree st else st))
      with ⟨r3, st3⟩
    rw [hdm] at h
    have hp3 : fileExists st3 ".complete" = false := by
      have hh := marker_download_manifest w env (_resolve_data_version env version)
        (mkdirP (if (force && st.dir.present) = true then rmtree st else st))
      rw [hdm] at hh
      exact hh.trans hC
    cases r3 with
    | error e3 =>
      dsimp only at h
      simp only [Prod.mk.injEq] at h
      rw [← h.2]
      exact hp3
    | ok mf =>
      dsimp only at h
      cases hrf : readFile st3 mf.1 with
      | none =>
        rw [hrf] at h
        dsimp only at h
        simp only [Prod.mk.injEq] at h
        rw [← h.2]
        exact hp3
      | some mc =>
        rw [hrf] at h
        dsimp only at h
        cases hpj : parseJson mc with
        | error e4 =>
          rw [hpj] at h
          dsimp only at h
          simp only [Prod.mk.injEq] at h
          rw [← h.2]
          exact hp3
        | ok manifest =>
          rw [hpj] at h
          dsimp only at h
          rcases hsy : (if mf.2 = true
              then _sync_from_legacy_manifest w
                (_resolve_base_url env (_resolve_data_version env version)) manifest st3
              else _sync_from_manifest w
                (_resolve_base_url env (_resolve_data_version env version)) manifest st3)
            with ⟨r4, st4⟩
          rw [hsy] at h
          have hp4 : fileExists st4 ".complete" = false := by
            by_cases hmf2 : mf.2 = true
            · rw [if_pos hmf2] at hsy
              obtain ⟨url, c, hnet, hrf2⟩ :=
                download_manifest_ok_readFile w env _ _ st3 mf hdm
              have hcmc : c = mc := by
                have hsc := hrf2.symm.trans hrf
                injection hsc
              have hA : ∀ av, jGet manifest "archive" = .ok av →
                  pyStr av ≠ ".complete" := by
                intro av hja
                obtain ⟨kvs, hm, hget⟩ := jGet_ok_inv manifest "archive" av hja
                refine (hw url c hnet).1 kvs av ?_ hget
                rw [hcmc, ← hm]
                exact hpj
              have hM : ∀ av c2 members, jGet manifest "archive" = .ok av →
                  w.net (_resolve_base_url env (_resolve_data_version env version) ++
                    "/" ++ pyStr av) = .ok c2 →
                  unzipContent c2 = .ok members →
                  ∀ m ∈ members, m.1 ≠ ".complete" :=
                fun av c2 members hja hnet2 hz => (hw _ c2 hnet2).2 members hz
              have hh := marker_sync_from_legacy w
                (_resolve_base_url env (_resolve_data_version env version))
                manifest st3 hA hM
              rw [hsy] at hh
              exact hh.trans hp3
            · rw [if_neg hmf2] at hsy
              have hh := marker_sync_from_manifest w
                (_resolve_base_url env (_resolve_data_version env version)) manifest st3
              rw [hsy] at hh
              exact hh.trans hp3
          cases r4 with
          | error e5 =>
            dsimp only at h
            simp only [Prod.mk.injEq] at h
            rw [← h.2]
            exact hp4
          | ok u4 =>
            dsimp only at h
            by_cases hmiss : (sortStrings EXPECTED_DATASETS).filter
                (fun name => ! fileExists st4 name) ≠ []
            · rw [if_pos hmiss] at h
              simp only [Prod.mk.injEq] at h
              rw [← h.2]
              exact hp4
            · rw [if_neg hmiss] at h
              exact absurd h (by simp)

/-- A legacy release that names ".complete" as its archive, with a wrong
archive digest. -/
def c1kvs : List (String × JVal) :=
  [("archive", .str ".complete"), ("archive_sha256", .str "X"),
   ("files", .obj [("f", .obj [("sha256", .str "h")])])]

/-- A network serving that hostile legacy release for version v1. -/
def c1world : World :=
  { net := fun url =>
      if url = demoBase ++ "/" ++ MANIFEST_NAME then .error (.status 404)
      else if url = demoBase ++ "/" ++ LEGACY_MANIFEST_NAME then
        .ok (.json (.obj c1kvs))
      else if url = demoBase ++ "/" ++ ".complete" then .ok (.bytes [1])
      else .error .transport,
    sha256 := fun _ => "Y", fsize := fun _ => 1 }

/-- C1 counterexample: against the hostile legacy release, ensure_data
raises ArchiveChecksumMismatch and yet the file ".complete" exists in the
cache directory afterward — the downloaded archive was stored under the
marker name before its digest was checked, so a later call would trust
the corrupt directory. -/
theorem C1_counterexample :
    (ensure_data c1world demoEnv (some "v1") false emptySt).1 =
      .error .archiveChecksumMismatch ∧
    fileExists (ensure_data c1world demoEnv (some "v1") false emptySt).2
      ".complete" = true :=
  ⟨rfl, rfl⟩

/-- C1 witness: the amended theorem applied to a failing run against a
dead (trivially hygienic) network. -/
theorem C1_marker_absent_on_error_witness :
    fileExists (ensure_data nullWorld demoEnv (some "v1") false emptySt).2
      ".complete" = false :=
  C1_marker_absent_on_error nullWorld demoEnv (some "v1") false emptySt
    (.http .transport) (ensure_data nullWorld demoEnv (some "v1") false emptySt).2
    (fun url c hc => by exact absurd hc (by simp [nullWorld])) (by rfl)

end JpIdwr
